import Mathlib

/-!
Verification development for the board-state engine of a grid-deduction
(minesweeper-style) game.  The repository contains two versions of the same
engine class `GameManager`:

* `src/src/app/GameManager.ts` — the inline version (namespace `GM1` below);
* `src/unnamed/part_000` — a refactored version with helper methods
  `createEmptyBoard` / `placeMines` / `calculateNeighborMines` /
  `isValidCell` / `countNeighborMines` (namespace `GM2` below).

Modelling conventions:

* A board is a list of rows, each a list of `CellState`, mirroring the
  `CellState[][]` array.  JavaScript indexing `board[row][col]` (which yields
  `undefined` out of range) is modelled by `cellAt?` returning `Option`.
* Row/column arguments are `Int`, since the flood fill recurses on `row - 1`.
* `Math.random()` draws are modelled by an explicit list of (row, col) draws
  consumed by `placeMines`; a `none` result means the rejection loop ran out
  of draws, i.e. that draw sequence corresponds to a non-terminating run and
  has no outcome.
* The recursive `revealCell` is modelled with explicit fuel
  (`unrevealedCount + 1`), which is sufficient because the source marks a
  cell revealed before recursing, so the recursion depth is bounded by the
  number of unrevealed cells.
* `toggleFlag` accesses `this.board[row][col].isRevealed` without a bounds
  check; out of range this throws a `TypeError` in JavaScript, modelled here
  by an `Option GameManager` result with `none` for the thrown error.
-/

/-- Mirror of the `CellState` record of the source: mine flag, revealed
flag, flag mark, and the stored neighbour mine count. -/
structure CellState where
  isMine : Bool
  isRevealed : Bool
  isFlagged : Bool
  neighborMines : Nat
deriving Repr, DecidableEq

/-- A board is the `CellState[][]` array: a list of rows of cells. -/
abbrev Board := List (List CellState)

/-- The all-false cell every board position starts from. -/
def emptyCell : CellState :=
  { isMine := false, isRevealed := false, isFlagged := false, neighborMines := 0 }

/-- Nat-indexed cell lookup: `board[r][c]`, `none` when out of range. -/
def getN (b : Board) (r c : Nat) : Option CellState :=
  (b[r]?).bind (fun row => row[c]?)

/-- Nat-indexed cell update; a no-op when the position does not exist
(the source never updates a non-existent position). -/
def setN (b : Board) (r c : Nat) (f : CellState → CellState) : Board :=
  match b[r]? with
  | none => b
  | some row =>
    match row[c]? with
    | none => b
    | some cell => b.set r (row.set c (f cell))

/-- Int-indexed cell lookup, modelling JavaScript `board[row][col]` where a
negative or too-large index yields `undefined` (here: `none`). -/
def cellAt? (b : Board) (row col : Int) : Option CellState :=
  if 0 ≤ row ∧ 0 ≤ col then getN b row.toNat col.toNat else none

/-- Int-indexed cell read with the inert default; only ever used at
positions whose existence is guaranteed by the caller's bounds check. -/
def cellAtD (b : Board) (row col : Int) : CellState :=
  (cellAt? b row col).getD emptyCell

/-- Int-indexed cell update (no-op out of range). -/
def setAt (b : Board) (row col : Int) (f : CellState → CellState) : Board :=
  if 0 ≤ row ∧ 0 ≤ col then setN b row.toNat col.toNat f else b

/-- The nine (i, j) offsets enumerated by the source's nested
`for i in -1..1, for j in -1..1` loops, in loop order. -/
def offsets : List (Int × Int) :=
  [(-1, -1), (-1, 0), (-1, 1), (0, -1), (0, 0), (0, 1), (1, -1), (1, 0), (1, 1)]

/-- Engine state: the mutable `board` field plus the fixed `rows`, `cols`,
`mines` fields of the `GameManager` class. -/
structure GameManager where
  board : Board
  rows : Nat
  cols : Nat
  mines : Nat
deriving Repr, DecidableEq

/-- The three difficulty labels. -/
inductive Difficulty where
  | easy
  | medium
  | hard
deriving Repr, DecidableEq

/-- One entry of the difficulty table. -/
structure Settings where
  rows : Nat
  cols : Nat
  mines : Nat
deriving Repr, DecidableEq

/-- Revealed flag of the cell at a position (false when out of range). -/
def revealedAt (b : Board) (row col : Int) : Bool :=
  (cellAtD b row col).isRevealed

/-- Number of unrevealed cells of the board; used as the fuel bound of the
modelled recursion. -/
def unrevealedCount (b : Board) : Nat :=
  (b.map (fun row => row.countP (fun cell => !cell.isRevealed))).sum

/-- Well-formedness of a board relative to intended dimensions: exactly
`rows` rows, each of length `cols`.  Every board the constructor builds has
this shape. -/
def Shaped (rows cols : Nat) (b : Board) : Prop :=
  b.length = rows ∧ ∀ row ∈ b, row.length = cols

/-- Well-formed engine state: the board has the `rows × cols` shape. -/
def Wf (gm : GameManager) : Prop :=
  Shaped gm.rows gm.cols gm.board

instance shapedDecidable (rows cols : Nat) (b : Board) : Decidable (Shaped rows cols b) := by
  unfold Shaped
  infer_instance

instance wfDecidable (gm : GameManager) : Decidable (Wf gm) := by
  unfold Wf
  exact shapedDecidable gm.rows gm.cols gm.board

namespace GM1

/-- The `DIFFICULTY_SETTINGS` table of the source. -/
def DIFFICULTY_SETTINGS : Difficulty → Settings
  | .easy => { rows := 9, cols := 9, mines := 10 }
  | .medium => { rows := 16, cols := 16, mines := 40 }
  | .hard => { rows := 16, cols := 30, mines := 99 }

/-- The fresh all-default board built at the top of `initializeBoard`:
`Array(rows).fill(null).map(() => Array(cols).fill(null).map(() => ({...})))`. -/
def createEmptyBoard (rows cols : Nat) : Board :=
  List.replicate rows (List.replicate cols emptyCell)

/-- The mine-placement rejection loop of `initializeBoard`: while fewer than
`mines` mines are placed, take the next random (row, col) draw; if that cell
is already mined, redraw, otherwise mark it mined.  The first argument is
the number of mines still to place; `none` means the draw list was exhausted
before the loop finished (a run with no outcome). -/
def placeMines : Board → Nat → List (Nat × Nat) → Option Board
  | b, 0, _ => some b
  | _, _ + 1, [] => none
  | b, n + 1, (r, c) :: draws =>
    if (cellAtD b r c).isMine then
      placeMines b (n + 1) draws
    else
      placeMines (setAt b r c (fun cell => { cell with isMine := true })) n draws

/-- The inner counting loop of `initializeBoard`: over the nine offsets,
count the positions that pass the explicit bounds test and hold a mine. -/
def neighborLoopCount (rows cols : Nat) (b : Board) (row col : Int) : Nat :=
  offsets.countP (fun d =>
    decide (0 ≤ row + d.1) && decide (row + d.1 < (rows : Int)) &&
    decide (0 ≤ col + d.2) && decide (col + d.2 < (cols : Int)) &&
    (cellAtD b (row + d.1) (col + d.2)).isMine)

/-- Row-major enumeration of all (row, col) index pairs, matching the
nested `for row, for col` loops. -/
def idxList (rows cols : Nat) : List (Nat × Nat) :=
  ((List.range rows).map (fun r => (List.range cols).map (fun c => (r, c)))).flatten

/-- One iteration of the neighbour-count loop body: skip mined cells,
otherwise store the count of mined neighbours. -/
def calcStep (rows cols : Nat) (b : Board) (rc : Nat × Nat) : Board :=
  if (cellAtD b rc.1 rc.2).isMine then b
  else setAt b rc.1 rc.2
    (fun cell => { cell with neighborMines := neighborLoopCount rows cols b rc.1 rc.2 })

/-- The neighbour-count double loop of `initializeBoard`, folded in row-major
order over the mutating board. -/
def calculateNeighborMines (rows cols : Nat) (b : Board) : Board :=
  (idxList rows cols).foldl (calcStep rows cols) b

/-- Model of `initializeBoard`: empty board, then the mine-placement loop,
then the neighbour-count loop. -/
def initBoard (rows cols mines : Nat) (draws : List (Nat × Nat)) : Option Board :=
  (placeMines (createEmptyBoard rows cols) mines draws).map
    (calculateNeighborMines rows cols)

/-- Model of the `GameManager` constructor: resolve the difficulty settings
and build the board (parametrised by the random draws). -/
def mkGameManager (d : Difficulty) (draws : List (Nat × Nat)) : Option GameManager :=
  let s := DIFFICULTY_SETTINGS d
  (initBoard s.rows s.cols s.mines draws).map
    (fun b => { board := b, rows := s.rows, cols := s.cols, mines := s.mines })

/-- The recursive body of `revealCell`, on the board with the fixed `rows`
and `cols` fields as parameters, with explicit fuel.  Mirrors the source:
bounds-or-revealed guard, mark revealed, mine check, zero-count flood
expansion over the nine offsets. -/
def revealFuelB (rows cols : Nat) : Nat → Board → Int → Int → Board × Bool
  | 0, b, _, _ => (b, false)
  | fuel + 1, b, row, col =>
    if row < 0 ∨ (rows : Int) ≤ row ∨ col < 0 ∨ (cols : Int) ≤ col ∨
        (cellAtD b row col).isRevealed then
      (b, false)
    else
      let b1 := setAt b row col (fun cell => { cell with isRevealed := true })
      if (cellAtD b1 row col).isMine then
        (b1, true)
      else if (cellAtD b1 row col).neighborMines = 0 then
        (offsets.foldl
          (fun acc d => (revealFuelB rows cols fuel acc (row + d.1) (col + d.2)).1)
          b1, false)
      else
        (b1, false)

/-- Model of `revealCell(row, col)`.  The fuel `unrevealedCount + 1` is
sufficient: each recursive level is entered only after revealing a
previously unrevealed cell, so the source recursion never nests deeper. -/
def revealCell (gm : GameManager) (row col : Int) : GameManager × Bool :=
  let r := revealFuelB gm.rows gm.cols (unrevealedCount gm.board + 1) gm.board row col
  ({ gm with board := r.1 }, r.2)

/-- Model of `toggleFlag(row, col)`.  The source reads
`this.board[row][col].isRevealed` with no bounds check; out of range the
read throws a `TypeError`, modelled by `none`.  In range: a revealed cell is
left untouched, otherwise `isFlagged` is negated. -/
def toggleFlag (gm : GameManager) (row col : Int) : Option GameManager :=
  match cellAt? gm.board row col with
  | none => none
  | some cell =>
    if cell.isRevealed then some gm
    else some { gm with
      board := setAt gm.board row col (fun c => { c with isFlagged := !c.isFlagged }) }

/-- Model of `checkWinCondition()`: every cell is a mine or revealed. -/
def checkWinCondition (gm : GameManager) : Bool :=
  gm.board.all (fun row => row.all (fun cell => cell.isMine || cell.isRevealed))

end GM1

namespace GM2

/-- The `DIFFICULTY_SETTINGS` table of the refactored source. -/
def DIFFICULTY_SETTINGS : Difficulty → Settings
  | .easy => { rows := 9, cols := 9, mines := 10 }
  | .medium => { rows := 16, cols := 16, mines := 40 }
  | .hard => { rows := 16, cols := 30, mines := 99 }

/-- Model of the `createEmptyBoard` helper. -/
def createEmptyBoard (rows cols : Nat) : Board :=
  List.replicate rows (List.replicate cols emptyCell)

/-- Model of the `placeMines` helper (the same rejection loop). -/
def placeMines : Board → Nat → List (Nat × Nat) → Option Board
  | b, 0, _ => some b
  | _, _ + 1, [] => none
  | b, n + 1, (r, c) :: draws =>
    if (cellAtD b r c).isMine then
      placeMines b (n + 1) draws
    else
      placeMines (setAt b r c (fun cell => { cell with isMine := true })) n draws

/-- Model of the `isValidCell` helper:
`row >= 0 && row < rows && col >= 0 && col < cols`. -/
def isValidCell (rows cols : Nat) (row col : Int) : Bool :=
  decide (0 ≤ row) && decide (row < (rows : Int)) &&
  decide (0 ≤ col) && decide (col < (cols : Int))

/-- Model of the `countNeighborMines` helper: count offsets passing
`isValidCell` whose cell is mined. -/
def countNeighborMines (rows cols : Nat) (b : Board) (row col : Int) : Nat :=
  offsets.countP (fun d =>
    isValidCell rows cols (row + d.1) (col + d.2) &&
    (cellAtD b (row + d.1) (col + d.2)).isMine)

/-- One iteration of the `calculateNeighborMines` loop body. -/
def calcStep (rows cols : Nat) (b : Board) (rc : Nat × Nat) : Board :=
  if (cellAtD b rc.1 rc.2).isMine then b
  else setAt b rc.1 rc.2
    (fun cell => { cell with neighborMines := countNeighborMines rows cols b rc.1 rc.2 })

/-- Model of the `calculateNeighborMines` helper. -/
def calculateNeighborMines (rows cols : Nat) (b : Board) : Board :=
  (GM1.idxList rows cols).foldl (calcStep rows cols) b

/-- Model of the refactored `initializeBoard`:
`createEmptyBoard` then `placeMines` then `calculateNeighborMines`. -/
def initBoard (rows cols mines : Nat) (draws : List (Nat × Nat)) : Option Board :=
  (placeMines (createEmptyBoard rows cols) mines draws).map
    (calculateNeighborMines rows cols)

/-- Model of the refactored constructor. -/
def mkGameManager (d : Difficulty) (draws : List (Nat × Nat)) : Option GameManager :=
  let s := DIFFICULTY_SETTINGS d
  (initBoard s.rows s.cols s.mines draws).map
    (fun b => { board := b, rows := s.rows, cols := s.cols, mines := s.mines })

/-- The refactored `revealCell` recursion with explicit fuel; the guard is
`!isValidCell(row, col) || board[row][col].isRevealed`. -/
def revealFuelB (rows cols : Nat) : Nat → Board → Int → Int → Board × Bool
  | 0, b, _, _ => (b, false)
  | fuel + 1, b, row, col =>
    if !isValidCell rows cols row col || (cellAtD b row col).isRevealed then
      (b, false)
    else
      let b1 := setAt b row col (fun cell => { cell with isRevealed := true })
      if (cellAtD b1 row col).isMine then
        (b1, true)
      else if (cellAtD b1 row col).neighborMines = 0 then
        (offsets.foldl
          (fun acc d => (revealFuelB rows cols fuel acc (row + d.1) (col + d.2)).1)
          b1, false)
      else
        (b1, false)

/-- Model of the refactored `revealCell(row, col)`. -/
def revealCell (gm : GameManager) (row col : Int) : GameManager × Bool :=
  let r := revealFuelB gm.rows gm.cols (unrevealedCount gm.board + 1) gm.board row col
  ({ gm with board := r.1 }, r.2)

/-- Model of the refactored `toggleFlag` (identical source text). -/
def toggleFlag (gm : GameManager) (row col : Int) : Option GameManager :=
  match cellAt? gm.board row col with
  | none => none
  | some cell =>
    if cell.isRevealed then some gm
    else some { gm with
      board := setAt gm.board row col (fun c => { c with isFlagged := !c.isFlagged }) }

/-- Model of the refactored `checkWinCondition` (identical source text). -/
def checkWinCondition (gm : GameManager) : Bool :=
  gm.board.all (fun row => row.all (fun cell => cell.isMine || cell.isRevealed))

end GM2

/-- The eight proper neighbour offsets (the cell itself excluded), used to
state the specification's neighbour-count property. -/
def neighborOffsets8 : List (Int × Int) :=
  [(-1, -1), (-1, 0), (-1, 1), (0, -1), (0, 1), (1, -1), (1, 0), (1, 1)]

/-- Specification-side neighbour count: the number of mined cells among the
up-to-8 grid-adjacent positions, clipped to the grid bounds. -/
def neighborMineCount8 (rows cols : Nat) (b : Board) (row col : Int) : Nat :=
  neighborOffsets8.countP (fun d =>
    decide (0 ≤ row + d.1) && decide (row + d.1 < (rows : Int)) &&
    decide (0 ≤ col + d.2) && decide (col + d.2 < (cols : Int)) &&
    (cellAtD b (row + d.1) (col + d.2)).isMine)

/-- In-bounds test for a position, relative to the engine dimensions. -/
def inB (rows cols : Nat) (p : Int × Int) : Bool :=
  decide (0 ≤ p.1) && decide (p.1 < (rows : Int)) &&
  decide (0 ≤ p.2) && decide (p.2 < (cols : Int))

/-- A position through which the flood fill expands: in bounds, unrevealed,
not a mine, and stored neighbour count zero. -/
def expandable (rows cols : Nat) (b : Board) (p : Int × Int) : Bool :=
  inB rows cols p &&
  !(cellAtD b p.1 p.2).isRevealed &&
  !(cellAtD b p.1 p.2).isMine &&
  decide ((cellAtD b p.1 p.2).neighborMines = 0)

/-- Positions reachable from `p0` by repeatedly stepping from an
`expandable` position to any of its nine offsets: the flood-fill region
(the connected component of unrevealed zero-count non-mine cells through
`p0`) together with its fringe of offset positions. -/
inductive Reach (rows cols : Nat) (b : Board) (p0 : Int × Int) : Int × Int → Prop where
  | base : Reach rows cols b p0 p0
  | step (p d : Int × Int) :
      Reach rows cols b p0 p → expandable rows cols b p = true → d ∈ offsets →
      Reach rows cols b p0 (p.1 + d.1, p.2 + d.2)

/-- The cell with its revealed flag cleared: two cells agree on everything
except revealedness iff their `stripRev` images agree. -/
def stripRev (cell : CellState) : CellState := { cell with isRevealed := false }

/-- What any number of reveal steps can do to a board: shape identical,
every field except `isRevealed` identical, `isRevealed` only ever turned on,
and the unrevealed-cell count does not grow. -/
def Evolves (b b' : Board) : Prop :=
  b'.length = b.length ∧
  (∀ i : Nat, (b'[i]?).map List.length = (b[i]?).map List.length) ∧
  (∀ r c : Int, (cellAt? b' r c).map stripRev = (cellAt? b r c).map stripRev) ∧
  (∀ r c : Int, revealedAt b r c = true → revealedAt b' r c = true) ∧
  unrevealedCount b' ≤ unrevealedCount b

/-- Number of mined cells of the board. -/
def mineCount (b : Board) : Nat :=
  (b.map (fun row => row.countP (fun cell => cell.isMine))).sum

/-! Concrete fixtures used by witnesses and counterexamples. -/

/-- An untouched zero-count cell. -/
def cellZ : CellState :=
  { isMine := false, isRevealed := false, isFlagged := false, neighborMines := 0 }

/-- A revealed zero-count cell. -/
def cellZR : CellState := { cellZ with isRevealed := true }

/-- An unrevealed cell with one neighbouring mine. -/
def cellOne : CellState := { cellZ with neighborMines := 1 }

/-- An unrevealed mine. -/
def cellMine : CellState := { cellZ with isMine := true }

/-- A 1×3 mine-free board whose middle cell is already revealed: the two
outer zero-count cells are in one connected zero region, but the revealed
middle cell stops the flood fill between them. -/
def blockGm : GameManager :=
  { board := [[cellZ, cellZR, cellZ]], rows := 1, cols := 3, mines := 0 }

/-- A consistent 1×4 board `[0, 0, 1, mine]` with one mine at (0,3). -/
def sampleGm : GameManager :=
  { board := [[cellZ, cellZ, cellOne, cellMine]], rows := 1, cols := 4, mines := 1 }

/-- Ten distinct in-range draws for an easy-difficulty construction. -/
def drawsEasy : List (Nat × Nat) :=
  [(0, 0), (0, 1), (0, 2), (0, 3), (0, 4), (0, 5), (0, 6), (0, 7), (0, 8), (1, 0)]

/-- The easy-difficulty engine built from `drawsEasy`. -/
def easyGm : GameManager :=
  (GM1.mkGameManager Difficulty.easy drawsEasy).getD
    { board := [], rows := 0, cols := 0, mines := 0 }


/-! Basic lemmas about cell access and update. -/

theorem Shaped.rowlen {rows cols : Nat} {b : Board} (hs : Shaped rows cols b) :
    ∀ (i : Nat) (row : List CellState), b[i]? = some row → row.length = cols := by
  intro i row h
  obtain ⟨hlt, rfl⟩ := List.getElem?_eq_some_iff.mp h
  exact hs.2 _ (List.getElem_mem hlt)

theorem shaped_of_get {rows cols : Nat} {b : Board} (hlen : b.length = rows)
    (h : ∀ (i : Nat) (row : List CellState), b[i]? = some row → row.length = cols) :
    Shaped rows cols b := by
  refine ⟨hlen, ?_⟩
  intro row hmem
  obtain ⟨i, hi, rfl⟩ := List.getElem_of_mem hmem
  exact h i _ (List.getElem?_eq_some_iff.mpr ⟨hi, rfl⟩)

theorem setN_eq_of_none {b : Board} {r c : Nat} (h : getN b r c = none)
    (f : CellState → CellState) : setN b r c f = b := by
  unfold getN at h
  unfold setN
  cases hb : b[r]? with
  | none => rfl
  | some row =>
    rw [hb, Option.some_bind] at h
    dsimp only
    rw [h]

theorem getN_setN_self {b : Board} {r c : Nat} {cell : CellState}
    (h : getN b r c = some cell) (f : CellState → CellState) :
    getN (setN b r c f) r c = some (f cell) := by
  unfold getN at h
  unfold setN
  cases hb : b[r]? with
  | none => rw [hb] at h; simp at h
  | some row =>
    rw [hb, Option.some_bind] at h
    dsimp only
    rw [h]
    unfold getN
    rw [List.getElem?_set_self', hb]
    simp only [Option.map_eq_map, Option.map_some', Option.some_bind, Function.const_apply]
    rw [List.getElem?_set_self', h]
    simp only [Option.map_eq_map, Option.map_some', Function.const_apply]

theorem getN_setN_ne {b : Board} {r c : Nat} (f : CellState → CellState)
    {r' c' : Nat} (h : ¬(r = r' ∧ c = c')) :
    getN (setN b r c f) r' c' = getN b r' c' := by
  unfold setN
  cases hb : b[r]? with
  | none => rfl
  | some row =>
    dsimp only
    cases hc : row[c]? with
    | none => rfl
    | some cell =>
      dsimp only
      unfold getN
      by_cases hr : r = r'
      · subst hr
        rw [List.getElem?_set_self', hb]
        simp only [Option.map_eq_map, Option.map_some', Option.some_bind, Function.const_apply]
        have hcc : c ≠ c' := fun hcc => h ⟨rfl, hcc⟩
        rw [List.getElem?_set_ne hcc]
      · rw [List.getElem?_set_ne hr]

theorem setAt_eq_of_none {b : Board} {row col : Int} (h : cellAt? b row col = none)
    (f : CellState → CellState) : setAt b row col f = b := by
  unfold cellAt? at h
  unfold setAt
  split
  · rename_i hpos
    rw [if_pos hpos] at h
    exact setN_eq_of_none h f
  · rfl

theorem cellAt?_setAt_self {b : Board} {row col : Int} {cell : CellState}
    (h : cellAt? b row col = some cell) (f : CellState → CellState) :
    cellAt? (setAt b row col f) row col = some (f cell) := by
  unfold cellAt? at h ⊢
  by_cases hpos : 0 ≤ row ∧ 0 ≤ col
  · rw [if_pos hpos] at h
    rw [if_pos hpos]
    unfold setAt
    rw [if_pos hpos]
    exact getN_setN_self h f
  · rw [if_neg hpos] at h
    exact absurd h (by simp)

theorem cellAt?_setAt_ne {b : Board} {row col : Int} (f : CellState → CellState)
    {r c : Int} (h : ¬(row = r ∧ col = c)) :
    cellAt? (setAt b row col f) r c = cellAt? b r c := by
  unfold setAt
  by_cases hpos : 0 ≤ row ∧ 0 ≤ col
  · rw [if_pos hpos]
    unfold cellAt?
    by_cases hpos' : 0 ≤ r ∧ 0 ≤ c
    · rw [if_pos hpos', if_pos hpos']
      apply getN_setN_ne
      intro hnat
      exact h ⟨by omega, by omega⟩
    · rw [if_neg hpos', if_neg hpos']
  · rw [if_neg hpos]

theorem length_setN (b : Board) (r c : Nat) (f : CellState → CellState) :
    (setN b r c f).length = b.length := by
  unfold setN
  cases hb : b[r]? with
  | none => rfl
  | some row =>
    dsimp only
    cases hc : row[c]? with
    | none => rfl
    | some cell => exact List.length_set b r _

theorem rowlen_setN (b : Board) (r c : Nat) (f : CellState → CellState) (i : Nat) :
    ((setN b r c f)[i]?).map List.length = (b[i]?).map List.length := by
  unfold setN
  cases hb : b[r]? with
  | none => rfl
  | some row =>
    dsimp only
    cases hc : row[c]? with
    | none => rfl
    | some cell =>
      dsimp only
      by_cases hr : r = i
      · subst hr
        rw [List.getElem?_set_self', hb]
        simp [List.length_set]
      · rw [List.getElem?_set_ne hr]

theorem length_setAt (b : Board) (row col : Int) (f : CellState → CellState) :
    (setAt b row col f).length = b.length := by
  unfold setAt
  split
  · exact length_setN b _ _ f
  · rfl

theorem rowlen_setAt (b : Board) (row col : Int) (f : CellState → CellState) (i : Nat) :
    ((setAt b row col f)[i]?).map List.length = (b[i]?).map List.length := by
  unfold setAt
  split
  · exact rowlen_setN b _ _ f i
  · rfl

theorem shaped_cellAt?_isSome {rows cols : Nat} {b : Board}
    (hs : Shaped rows cols b) {row col : Int}
    (h0r : 0 ≤ row) (hr : row < (rows : Int)) (h0c : 0 ≤ col) (hc : col < (cols : Int)) :
    ∃ cell, cellAt? b row col = some cell := by
  have hlen := hs.1
  unfold cellAt? getN
  rw [if_pos ⟨h0r, h0c⟩]
  have hrn : row.toNat < b.length := by omega
  obtain ⟨rowList, hrow⟩ : ∃ rowList, b[row.toNat]? = some rowList :=
    ⟨b[row.toNat], List.getElem?_eq_some_iff.mpr ⟨hrn, rfl⟩⟩
  rw [hrow, Option.some_bind]
  have hcn : col.toNat < rowList.length := by
    rw [hs.rowlen row.toNat rowList hrow]; omega
  exact ⟨rowList[col.toNat], List.getElem?_eq_some_iff.mpr ⟨hcn, rfl⟩⟩

/-! Counting lemmas for the unrevealed-cell measure. -/

theorem countP_set_add {α : Type} (p : α → Bool) (l : List α) (c : Nat) {x : α}
    (h : l[c]? = some x) (y : α) :
    (l.set c y).countP p + (if p x then 1 else 0) = l.countP p + (if p y then 1 else 0) := by
  induction l generalizing c with
  | nil => simp at h
  | cons a t ih =>
    cases c with
    | zero =>
      simp only [List.getElem?_cons_zero, Option.some_inj] at h
      subst h
      simp only [List.set_cons_zero, List.countP_cons]
      omega
    | succ n =>
      simp only [List.getElem?_cons_succ] at h
      simp only [List.set_cons_succ, List.countP_cons]
      have := ih n h
      omega

theorem unrevealedCount_cons (row : List CellState) (t : Board) :
    unrevealedCount (row :: t) =
      row.countP (fun cell => !cell.isRevealed) + unrevealedCount t := by
  simp [unrevealedCount]

theorem unrevealedCount_set_add (b : Board) (r : Nat) {row : List CellState}
    (h : b[r]? = some row) (row' : List CellState) :
    unrevealedCount (b.set r row') + row.countP (fun cell => !cell.isRevealed) =
      unrevealedCount b + row'.countP (fun cell => !cell.isRevealed) := by
  induction b generalizing r with
  | nil => simp at h
  | cons a t ih =>
    cases r with
    | zero =>
      simp only [List.getElem?_cons_zero, Option.some_inj] at h
      subst h
      simp only [List.set_cons_zero, unrevealedCount_cons]
      omega
    | succ n =>
      simp only [List.getElem?_cons_succ] at h
      simp only [List.set_cons_succ, unrevealedCount_cons]
      have := ih n h
      omega

theorem unrevealedCount_setN_add {b : Board} {r c : Nat} {cell : CellState}
    (h : getN b r c = some cell) (f : CellState → CellState) :
    unrevealedCount (setN b r c f) + (if cell.isRevealed then 0 else 1) =
      unrevealedCount b + (if (f cell).isRevealed then 0 else 1) := by
  unfold getN at h
  unfold setN
  cases hb : b[r]? with
  | none => rw [hb] at h; simp at h
  | some row =>
    rw [hb, Option.some_bind] at h
    dsimp only
    rw [h]
    dsimp only
    have h1 := unrevealedCount_set_add b r hb (row.set c (f cell))
    have h2 := countP_set_add (fun z => !z.isRevealed) row c h (f cell)
    have hx : (if (!cell.isRevealed) = true then 1 else 0) =
        (if cell.isRevealed then 0 else 1) := by
      cases cell.isRevealed <;> rfl
    have hy : (if (!(f cell).isRevealed) = true then 1 else 0) =
        (if (f cell).isRevealed then 0 else 1) := by
      cases (f cell).isRevealed <;> rfl
    rw [hx, hy] at h2
    omega

theorem unrevealedCount_setAt_add {b : Board} {row col : Int} {cell : CellState}
    (h : cellAt? b row col = some cell) (f : CellState → CellState) :
    unrevealedCount (setAt b row col f) + (if cell.isRevealed then 0 else 1) =
      unrevealedCount b + (if (f cell).isRevealed then 0 else 1) := by
  unfold cellAt? at h
  unfold setAt
  by_cases hpos : 0 ≤ row ∧ 0 ≤ col
  · rw [if_pos hpos] at h
    rw [if_pos hpos]
    exact unrevealedCount_setN_add h f
  · rw [if_neg hpos] at h
    simp at h

/-! Frame and growth through a reveal step. -/

theorem evolves_refl (b : Board) : Evolves b b :=
  ⟨rfl, fun _ => rfl, fun _ _ => rfl, fun _ _ h => h, le_refl _⟩

theorem evolves_trans {a b c : Board} (h1 : Evolves a b) (h2 : Evolves b c) :
    Evolves a c := by
  obtain ⟨l1, rl1, f1, g1, c1⟩ := h1
  obtain ⟨l2, rl2, f2, g2, c2⟩ := h2
  exact ⟨l2.trans l1, fun i => (rl2 i).trans (rl1 i),
    fun r c => (f2 r c).trans (f1 r c),
    fun r c h => g2 r c (g1 r c h), c2.trans c1⟩

theorem cellAtD_setAt_self {b : Board} {row col : Int} {cell : CellState}
    (h : cellAt? b row col = some cell) (f : CellState → CellState) :
    cellAtD (setAt b row col f) row col = f cell := by
  unfold cellAtD
  rw [cellAt?_setAt_self h]
  rfl

theorem cellAtD_setAt_ne {b : Board} {row col : Int} (f : CellState → CellState)
    {r c : Int} (h : ¬(row = r ∧ col = c)) :
    cellAtD (setAt b row col f) r c = cellAtD b r c := by
  unfold cellAtD
  rw [cellAt?_setAt_ne f h]

theorem evolves_setReveal (b : Board) (row col : Int) :
    Evolves b (setAt b row col (fun cell => { cell with isRevealed := true })) := by
  cases h : cellAt? b row col with
  | none => rw [setAt_eq_of_none h]; exact evolves_refl b
  | some cell =>
    refine ⟨length_setAt b row col _, rowlen_setAt b row col _, ?_, ?_, ?_⟩
    · intro r c
      by_cases hrc : row = r ∧ col = c
      · obtain ⟨rfl, rfl⟩ := hrc
        rw [cellAt?_setAt_self h, h]
        rfl
      · rw [cellAt?_setAt_ne _ hrc]
    · intro r c hrev
      by_cases hrc : row = r ∧ col = c
      · obtain ⟨rfl, rfl⟩ := hrc
        unfold revealedAt
        rw [cellAtD_setAt_self h]
      · unfold revealedAt
        rw [cellAtD_setAt_ne _ hrc]
        exact hrev
    · have := unrevealedCount_setAt_add h (fun cell => { cell with isRevealed := true })
      simp only [if_true] at this
      cases hrev : cell.isRevealed <;> rw [hrev] at this <;> omega

theorem evolves_foldl {α : Type} (g : Board → α → Board)
    (hg : ∀ acc d, Evolves acc (g acc d)) :
    ∀ (l : List α) (acc : Board), Evolves acc (l.foldl g acc)
  | [], acc => evolves_refl acc
  | d :: l, acc => evolves_trans (hg acc d) (evolves_foldl g hg l (g acc d))

namespace GM1

theorem revealFuelB_succ (rows cols fuel : Nat) (b : Board) (row col : Int) :
    revealFuelB rows cols (fuel + 1) b row col =
      if row < 0 ∨ (rows : Int) ≤ row ∨ col < 0 ∨ (cols : Int) ≤ col ∨
          (cellAtD b row col).isRevealed then
        (b, false)
      else
        let b1 := setAt b row col (fun cell => { cell with isRevealed := true })
        if (cellAtD b1 row col).isMine then
          (b1, true)
        else if (cellAtD b1 row col).neighborMines = 0 then
          (offsets.foldl
            (fun acc d => (revealFuelB rows cols fuel acc (row + d.1) (col + d.2)).1)
            b1, false)
        else
          (b1, false) := rfl

theorem evolves_revealFold (rows cols f : Nat) (row col : Int)
    (ih : ∀ (b : Board) (r c : Int), Evolves b (revealFuelB rows cols f b r c).1) :
    ∀ (l : List (Int × Int)) (acc : Board),
      Evolves acc (List.foldl
        (fun acc d => (revealFuelB rows cols f acc (row + d.1) (col + d.2)).1) acc l)
  | [], acc => evolves_refl acc
  | d :: l, acc =>
    evolves_trans (ih acc (row + d.1) (col + d.2))
      (evolves_revealFold rows cols f row col ih l _)

theorem evolves_revealFuelB (rows cols : Nat) :
    ∀ (fuel : Nat) (b : Board) (row col : Int),
      Evolves b (revealFuelB rows cols fuel b row col).1 := by
  intro fuel
  induction fuel with
  | zero => intro b row col; exact evolves_refl b
  | succ f ih =>
    intro b row col
    rw [revealFuelB_succ]
    by_cases hg : row < 0 ∨ (rows : Int) ≤ row ∨ col < 0 ∨ (cols : Int) ≤ col ∨
        (cellAtD b row col).isRevealed = true
    · rw [if_pos hg]
      exact evolves_refl b
    · rw [if_neg hg]
      dsimp only
      by_cases hm : (cellAtD (setAt b row col
          (fun cell => { cell with isRevealed := true })) row col).isMine = true
      · rw [if_pos hm]
        exact evolves_setReveal b row col
      · rw [if_neg hm]
        by_cases hz : (cellAtD (setAt b row col
            (fun cell => { cell with isRevealed := true })) row col).neighborMines = 0
        · rw [if_pos hz]
          exact evolves_trans (evolves_setReveal b row col)
            (evolves_revealFold rows cols f row col ih offsets _)
        · rw [if_neg hz]
          exact evolves_setReveal b row col

end GM1

/-! Consequences of `Evolves`, and out-of-bounds access lemmas. -/

theorem cellAtD_eq {b : Board} {row col : Int} {cell : CellState}
    (h : cellAt? b row col = some cell) : cellAtD b row col = cell := by
  unfold cellAtD
  rw [h]
  rfl

theorem evolves_shaped {rows cols : Nat} {b b' : Board}
    (he : Evolves b b') (hs : Shaped rows cols b) : Shaped rows cols b' := by
  obtain ⟨hlen, hrowlen, _, _, _⟩ := he
  refine shaped_of_get (hlen.trans hs.1) ?_
  intro i row' hrow'
  have h := hrowlen i
  rw [hrow'] at h
  cases hb : b[i]? with
  | none => rw [hb] at h; simp at h
  | some row =>
    rw [hb] at h
    simp only [Option.map_some'] at h
    rw [Option.some_inj] at h
    rw [h]
    exact hs.rowlen i row hb

theorem cellAt?_none_oob {rows cols : Nat} {b : Board} (hs : Shaped rows cols b)
    {row col : Int}
    (h : row < 0 ∨ (rows : Int) ≤ row ∨ col < 0 ∨ (cols : Int) ≤ col) :
    cellAt? b row col = none := by
  have hlen := hs.1
  unfold cellAt? getN
  by_cases hpos : 0 ≤ row ∧ 0 ≤ col
  · rw [if_pos hpos]
    cases hb : b[row.toNat]? with
    | none => rfl
    | some rowList =>
      rw [Option.some_bind]
      have hrlt : row.toNat < b.length := by
        by_contra hge
        rw [List.getElem?_eq_none (by omega)] at hb
        exact Option.noConfusion hb
      have hclen : rowList.length = cols := hs.rowlen row.toNat rowList hb
      have hcge : cols ≤ col.toNat := by omega
      exact List.getElem?_eq_none (by omega)
  · rw [if_neg hpos]

/-- Restatement of the frame component of `Evolves` in terms of the two
cells: matching positions hold cells equal in everything but revealedness. -/
theorem evolves_cells {b b' : Board} (he : Evolves b b') {r c : Int}
    {x y : CellState} (hx : cellAt? b r c = some x) (hy : cellAt? b' r c = some y) :
    y.isMine = x.isMine ∧ y.isFlagged = x.isFlagged ∧
      y.neighborMines = x.neighborMines := by
  have h := he.2.2.1 r c
  rw [hx, hy] at h
  simp only [Option.map_some'] at h
  rw [Option.some_inj] at h
  simp only [stripRev, CellState.mk.injEq] at h
  exact ⟨h.1, h.2.2.1, h.2.2.2⟩

/-- The someness of a position is preserved by `Evolves`. -/
theorem evolves_isSome {b b' : Board} (he : Evolves b b') (r c : Int) :
    (cellAt? b' r c).isSome = (cellAt? b r c).isSome := by
  have h := he.2.2.1 r c
  cases hx : cellAt? b r c with
  | none =>
    rw [hx, Option.map_none', Option.map_eq_none'] at h
    rw [h]
  | some x =>
    rw [hx] at h
    cases hy : cellAt? b' r c with
    | none => rw [hy] at h; simp at h
    | some y => rfl

/-! Flood-fill region lemmas. -/

/-- Every field but revealedness of the (defaulted) cell read is invariant
under `Evolves`. -/
theorem evolves_cellAtD {b b' : Board} (he : Evolves b b') (r c : Int) :
    (cellAtD b' r c).isMine = (cellAtD b r c).isMine ∧
    (cellAtD b' r c).isFlagged = (cellAtD b r c).isFlagged ∧
    (cellAtD b' r c).neighborMines = (cellAtD b r c).neighborMines := by
  have hf := he.2.2.1 r c
  cases hx : cellAt? b r c with
  | none =>
    rw [hx, Option.map_none', Option.map_eq_none'] at hf
    unfold cellAtD
    rw [hx, hf]
    exact ⟨rfl, rfl, rfl⟩
  | some x =>
    rw [hx] at hf
    cases hy : cellAt? b' r c with
    | none => rw [hy] at hf; simp at hf
    | some y =>
      rw [hy] at hf
      simp only [Option.map_some'] at hf
      rw [Option.some_inj] at hf
      simp only [stripRev, CellState.mk.injEq] at hf
      rw [cellAtD_eq hx, cellAtD_eq hy]
      exact ⟨hf.1, hf.2.2.1, hf.2.2.2⟩

/-- A position still unrevealed after some evolution is expandable there iff
it was expandable before. -/
theorem expandable_evolve {rows cols : Nat} {b b' : Board} (he : Evolves b b')
    {q : Int × Int} (hq : expandable rows cols b q = true)
    (hrev : revealedAt b' q.1 q.2 = false) : expandable rows cols b' q = true := by
  unfold expandable at hq ⊢
  unfold revealedAt at hrev
  obtain ⟨hm, _, hn⟩ := evolves_cellAtD he q.1 q.2
  simp only [Bool.and_eq_true, Bool.not_eq_true'] at hq ⊢
  exact ⟨⟨⟨hq.1.1.1, hrev⟩, by rw [hm]; exact hq.1.2⟩, by rw [hn]; exact hq.2⟩

/-- `Reach` only shrinks when cells get revealed: a region of the evolved
board is inside the region of the original board. -/
theorem reach_anti {rows cols : Nat} {b b' : Board} (he : Evolves b b')
    {p0 q : Int × Int} (h : Reach rows cols b' p0 q) : Reach rows cols b p0 q := by
  induction h with
  | base => exact Reach.base
  | step p d _ hexp hd ih =>
    refine Reach.step p d ih ?_ hd
    unfold expandable at hexp ⊢
    obtain ⟨hm, _, hn⟩ := evolves_cellAtD he p.1 p.2
    simp only [Bool.and_eq_true, Bool.not_eq_true'] at hexp ⊢
    refine ⟨⟨⟨hexp.1.1.1, ?_⟩, by rw [← hm]; exact hexp.1.2⟩, by rw [← hn]; exact hexp.2⟩
    have hg := he.2.2.2.1 p.1 p.2
    unfold revealedAt at hg
    cases hrb : (cellAtD b p.1 p.2).isRevealed
    · rfl
    · exact absurd (hexp.1.1.2) (by rw [hg hrb]; simp)

/-- Prepending an expandable origin to a region: anything reachable from an
offset of an expandable position is reachable from the position. -/
theorem reach_comp {rows cols : Nat} {b : Board} {p d q : Int × Int}
    (hexp : expandable rows cols b p = true) (hd : d ∈ offsets)
    (h : Reach rows cols b (p.1 + d.1, p.2 + d.2) q) : Reach rows cols b p q := by
  induction h with
  | base => exact Reach.step p d Reach.base hexp hd
  | step p' d' _ hexp' hd' ih => exact Reach.step p' d' ih hexp' hd'

/-- Anything revealed after setting one position revealed was that position
or was already revealed. -/
theorem revealedAt_setReveal_cases {b : Board} {row col r c : Int}
    (h : revealedAt (setAt b row col
      (fun cell => { cell with isRevealed := true })) r c = true) :
    (r = row ∧ c = col) ∨ revealedAt b r c = true := by
  by_cases hrc : row = r ∧ col = c
  · exact Or.inl ⟨hrc.1.symm, hrc.2.symm⟩
  · unfold revealedAt at h
    rw [cellAtD_setAt_ne _ hrc] at h
    exact Or.inr h

namespace GM1

/-- Revealing a non-mine position reports no mine hit, at every fuel. -/
theorem revealFuelB_snd_false (rows cols : Nat) :
    ∀ (f : Nat) (b : Board) (row col : Int),
      (cellAtD b row col).isMine = false →
      (revealFuelB rows cols f b row col).2 = false := by
  intro f b row col hm
  cases f with
  | zero => rfl
  | succ f =>
    rw [revealFuelB_succ]
    by_cases hg : row < 0 ∨ (rows : Int) ≤ row ∨ col < 0 ∨ (cols : Int) ≤ col ∨
        (cellAtD b row col).isRevealed = true
    · rw [if_pos hg]
    · rw [if_neg hg]
      dsimp only
      have hm1 : (cellAtD (setAt b row col
          (fun cell => { cell with isRevealed := true })) row col).isMine = false := by
        cases hcell : cellAt? b row col with
        | none => rw [setAt_eq_of_none hcell]; exact hm
        | some cell =>
          rw [cellAtD_setAt_self hcell]
          rw [cellAtD_eq hcell] at hm
          exact hm
      rw [if_neg (by rw [hm1]; simp)]
      by_cases hz : (cellAtD (setAt b row col
          (fun cell => { cell with isRevealed := true })) row col).neighborMines = 0
      · rw [if_pos hz]
      · rw [if_neg hz]

/-- With at least one unit of fuel, a call on an in-bounds existing position
leaves that position revealed. -/
theorem revealFuelB_origin (rows cols : Nat) (f : Nat) (b : Board) (row col : Int)
    (hf : 1 ≤ f) (hs : Shaped rows cols b)
    (h0r : 0 ≤ row) (hr : row < (rows : Int)) (h0c : 0 ≤ col) (hc : col < (cols : Int)) :
    revealedAt (revealFuelB rows cols f b row col).1 row col = true := by
  obtain ⟨f', rfl⟩ : ∃ f', f = f' + 1 := ⟨f - 1, by omega⟩
  obtain ⟨cell, hcell⟩ := shaped_cellAt?_isSome hs h0r hr h0c hc
  rw [revealFuelB_succ]
  by_cases hg : row < 0 ∨ (rows : Int) ≤ row ∨ col < 0 ∨ (cols : Int) ≤ col ∨
      (cellAtD b row col).isRevealed = true
  · rw [if_pos hg]
    unfold revealedAt
    rcases hg with h | h | h | h | h
    · omega
    · omega
    · omega
    · omega
    · exact h
  · rw [if_neg hg]
    dsimp only
    have hb1 : revealedAt (setAt b row col
        (fun cell => { cell with isRevealed := true })) row col = true := by
      unfold revealedAt
      rw [cellAtD_setAt_self hcell]
    by_cases hm : (cellAtD (setAt b row col
        (fun cell => { cell with isRevealed := true })) row col).isMine = true
    · rw [if_pos hm]
      exact hb1
    · rw [if_neg hm]
      by_cases hz : (cellAtD (setAt b row col
          (fun cell => { cell with isRevealed := true })) row col).neighborMines = 0
      · rw [if_pos hz]
        exact (evolves_revealFold rows cols f' row col
          (evolves_revealFuelB rows cols f') offsets _).2.2.2.1 row col hb1
      · rw [if_neg hz]
        exact hb1

end GM1

theorem cellAtD_none {b : Board} {row col : Int} (h : cellAt? b row col = none) :
    cellAtD b row col = emptyCell := by
  unfold cellAtD
  rw [h]
  rfl

theorem inB_eq_true {rows cols : Nat} {p : Int × Int} :
    inB rows cols p = true ↔
      0 ≤ p.1 ∧ p.1 < (rows : Int) ∧ 0 ≤ p.2 ∧ p.2 < (cols : Int) := by
  unfold inB
  simp only [Bool.and_eq_true, decide_eq_true_eq]
  exact ⟨fun ⟨⟨⟨a, b⟩, c⟩, d⟩ => ⟨a, b, c, d⟩, fun ⟨a, b, c, d⟩ => ⟨⟨⟨a, b⟩, c⟩, d⟩⟩

theorem expandable_eq_true {rows cols : Nat} {b : Board} {p : Int × Int} :
    expandable rows cols b p = true ↔
      inB rows cols p = true ∧ (cellAtD b p.1 p.2).isRevealed = false ∧
      (cellAtD b p.1 p.2).isMine = false ∧ (cellAtD b p.1 p.2).neighborMines = 0 := by
  unfold expandable
  simp only [Bool.and_eq_true, Bool.not_eq_true', decide_eq_true_eq]
  exact ⟨fun ⟨⟨⟨a, b⟩, c⟩, d⟩ => ⟨a, b, c, d⟩, fun ⟨a, b, c, d⟩ => ⟨⟨⟨a, b⟩, c⟩, d⟩⟩

namespace GM1

theorem revealFold_sound (rows cols f : Nat) (row col : Int)
    (IH : ∀ (b : Board) (r c : Int) (q : Int × Int),
      revealedAt (revealFuelB rows cols f b r c).1 q.1 q.2 = true →
      revealedAt b q.1 q.2 = true ∨
        (inB rows cols q = true ∧ Reach rows cols b (r, c) q)) :
    ∀ (l : List (Int × Int)) (acc : Board) (q : Int × Int),
      revealedAt (List.foldl
        (fun acc d => (revealFuelB rows cols f acc (row + d.1) (col + d.2)).1) acc l)
        q.1 q.2 = true →
      revealedAt acc q.1 q.2 = true ∨
        ∃ d ∈ l, inB rows cols q = true ∧
          Reach rows cols acc (row + d.1, col + d.2) q := by
  intro l
  induction l with
  | nil => intro acc q h; exact Or.inl h
  | cons d l ihl =>
    intro acc q h
    simp only [List.foldl_cons] at h
    rcases ihl _ q h with h1 | ⟨d', hd', hin, hr⟩
    · rcases IH acc (row + d.1) (col + d.2) q h1 with h2 | ⟨hin, hr⟩
      · exact Or.inl h2
      · exact Or.inr ⟨d, List.mem_cons_self d l, hin, hr⟩
    · exact Or.inr ⟨d', List.mem_cons_of_mem d hd', hin,
        reach_anti (evolves_revealFuelB rows cols f acc (row + d.1) (col + d.2)) hr⟩

theorem revealFuelB_sound (rows cols : Nat) :
    ∀ (f : Nat) (b : Board) (row col : Int) (q : Int × Int),
      revealedAt (revealFuelB rows cols f b row col).1 q.1 q.2 = true →
      revealedAt b q.1 q.2 = true ∨
        (inB rows cols q = true ∧ Reach rows cols b (row, col) q) := by
  intro f
  induction f with
  | zero => intro b row col q h; exact Or.inl h
  | succ f ih =>
    intro b row col q h
    obtain ⟨qr, qc⟩ := q
    rw [revealFuelB_succ] at h
    by_cases hg : row < 0 ∨ (rows : Int) ≤ row ∨ col < 0 ∨ (cols : Int) ≤ col ∨
        (cellAtD b row col).isRevealed = true
    · rw [if_pos hg] at h
      exact Or.inl h
    · rw [if_neg hg] at h
      dsimp only at h
      push_neg at hg
      obtain ⟨hg1, hg2, hg3, hg4, hg5⟩ := hg
      have hrev : (cellAtD b row col).isRevealed = false := by
        cases hx : (cellAtD b row col).isRevealed
        · rfl
        · exact absurd hx hg5
      have hbounds : inB rows cols (row, col) = true :=
        inB_eq_true.mpr ⟨by omega, by omega, by omega, by omega⟩
      by_cases hm : (cellAtD (setAt b row col
          (fun cell => { cell with isRevealed := true })) row col).isMine = true
      · rw [if_pos hm] at h
        dsimp only at h
        rcases revealedAt_setReveal_cases h with ⟨rfl, rfl⟩ | hb
        · exact Or.inr ⟨hbounds, Reach.base⟩
        · exact Or.inl hb
      · rw [if_neg hm] at h
        have hmb : (cellAtD b row col).isMine = false := by
          cases hcell : cellAt? b row col with
          | none => rw [cellAtD_none hcell]; rfl
          | some cell =>
            rw [cellAtD_setAt_self hcell] at hm
            rw [cellAtD_eq hcell]
            simpa using hm
        by_cases hz : (cellAtD (setAt b row col
            (fun cell => { cell with isRevealed := true })) row col).neighborMines = 0
        · rw [if_pos hz] at h
          dsimp only at h
          have hzb : (cellAtD b row col).neighborMines = 0 := by
            cases hcell : cellAt? b row col with
            | none => rw [cellAtD_none hcell]; rfl
            | some cell =>
              rw [cellAtD_setAt_self hcell] at hz
              rw [cellAtD_eq hcell]
              simpa using hz
          have hexp : expandable rows cols b (row, col) = true :=
            expandable_eq_true.mpr ⟨hbounds, hrev, hmb, hzb⟩
          rcases revealFold_sound rows cols f row col ih offsets _ (qr, qc) h with
            h1 | ⟨d, hd, hin, hr⟩
          · rcases revealedAt_setReveal_cases h1 with ⟨rfl, rfl⟩ | hb
            · exact Or.inr ⟨hbounds, Reach.base⟩
            · exact Or.inl hb
          · exact Or.inr ⟨hin,
              reach_comp hexp hd (reach_anti (evolves_setReveal b row col) hr)⟩
        · rw [if_neg hz] at h
          dsimp only at h
          rcases revealedAt_setReveal_cases h with ⟨rfl, rfl⟩ | hb
          · exact Or.inr ⟨hbounds, Reach.base⟩
          · exact Or.inl hb

end GM1

theorem unrevealedCount_reveal {b : Board} {row col : Int} {cell : CellState}
    (h : cellAt? b row col = some cell) (hrev : cell.isRevealed = false) :
    unrevealedCount (setAt b row col (fun c => { c with isRevealed := true })) + 1 =
      unrevealedCount b := by
  have hadd := unrevealedCount_setAt_add h (fun c => { c with isRevealed := true })
  rw [hrev] at hadd
  simp at hadd
  omega

namespace GM1

theorem revealFold_visits (rows cols f : Nat) (row col : Int) (hf : 1 ≤ f) :
    ∀ (l : List (Int × Int)) (acc : Board), Shaped rows cols acc →
      ∀ d ∈ l, inB rows cols (row + d.1, col + d.2) = true →
        revealedAt (List.foldl
          (fun acc d => (revealFuelB rows cols f acc (row + d.1) (col + d.2)).1) acc l)
          (row + d.1) (col + d.2) = true := by
  intro l
  induction l with
  | nil => intro acc _ d hd; simp at hd
  | cons d0 l ihl =>
    intro acc hs d hd hin
    simp only [List.foldl_cons]
    rcases List.mem_cons.mp hd with rfl | hdl
    · have hb := inB_eq_true.mp hin
      have h1 : revealedAt (revealFuelB rows cols f acc (row + d.1) (col + d.2)).1
          (row + d.1) (col + d.2) = true :=
        revealFuelB_origin rows cols f acc _ _ hf hs hb.1 hb.2.1 hb.2.2.1 hb.2.2.2
      exact (evolves_revealFold rows cols f row col
        (evolves_revealFuelB rows cols f) l _).2.2.2.1 _ _ h1
    · exact ihl _ (evolves_shaped
        (evolves_revealFuelB rows cols f acc (row + d0.1) (col + d0.2)) hs) d hdl hin

theorem revealFold_exp (rows cols f : Nat) (row col : Int)
    (IH : ∀ (b : Board) (r c : Int), unrevealedCount b < f → Shaped rows cols b →
      ∀ q : Int × Int, expandable rows cols b q = true →
        revealedAt (revealFuelB rows cols f b r c).1 q.1 q.2 = true →
        ∀ d ∈ offsets, inB rows cols (q.1 + d.1, q.2 + d.2) = true →
          revealedAt (revealFuelB rows cols f b r c).1 (q.1 + d.1) (q.2 + d.2) = true) :
    ∀ (l : List (Int × Int)) (acc : Board), Shaped rows cols acc →
      unrevealedCount acc < f →
      ∀ q : Int × Int, expandable rows cols acc q = true →
        revealedAt (List.foldl
          (fun acc d => (revealFuelB rows cols f acc (row + d.1) (col + d.2)).1) acc l)
          q.1 q.2 = true →
        ∀ d ∈ offsets, inB rows cols (q.1 + d.1, q.2 + d.2) = true →
          revealedAt (List.foldl
            (fun acc d => (revealFuelB rows cols f acc (row + d.1) (col + d.2)).1) acc l)
            (q.1 + d.1) (q.2 + d.2) = true := by
  intro l
  induction l with
  | nil =>
    intro acc _ _ q hexp h
    exfalso
    simp only [List.foldl_nil] at h
    have hq := (expandable_eq_true.mp hexp).2.1
    unfold revealedAt at h
    rw [hq] at h
    exact Bool.noConfusion h
  | cons d0 l ihl =>
    intro acc hs hcnt q hexp h d hd hin
    simp only [List.foldl_cons] at h ⊢
    have hev : Evolves acc (revealFuelB rows cols f acc (row + d0.1) (col + d0.2)).1 :=
      evolves_revealFuelB rows cols f acc (row + d0.1) (col + d0.2)
    by_cases hq : revealedAt
        (revealFuelB rows cols f acc (row + d0.1) (col + d0.2)).1 q.1 q.2 = true
    · have hnbrs := IH acc (row + d0.1) (col + d0.2) hcnt hs q hexp hq d hd hin
      exact (evolves_revealFold rows cols f row col
        (evolves_revealFuelB rows cols f) l _).2.2.2.1 _ _ hnbrs
    · have hq' : revealedAt
          (revealFuelB rows cols f acc (row + d0.1) (col + d0.2)).1 q.1 q.2 = false := by
        cases hx : revealedAt
            (revealFuelB rows cols f acc (row + d0.1) (col + d0.2)).1 q.1 q.2
        · rfl
        · exact absurd hx hq
      exact ihl _ (evolves_shaped hev hs) (lt_of_le_of_lt hev.2.2.2.2 hcnt) q
        (expandable_evolve hev hexp hq') h d hd hin

theorem revealFuelB_exp (rows cols : Nat) :
    ∀ (f : Nat) (b : Board) (row col : Int), unrevealedCount b < f →
      Shaped rows cols b →
      ∀ q : Int × Int, expandable rows cols b q = true →
        revealedAt (revealFuelB rows cols f b row col).1 q.1 q.2 = true →
        ∀ d ∈ offsets, inB rows cols (q.1 + d.1, q.2 + d.2) = true →
          revealedAt (revealFuelB rows cols f b row col).1 (q.1 + d.1) (q.2 + d.2) = true := by
  intro f
  induction f with
  | zero => intro b row col hcnt; exact absurd hcnt (by omega)
  | succ f ih =>
    intro b row col hcnt hs q hexp h d hd hin
    rw [revealFuelB_succ] at h ⊢
    by_cases hg : row < 0 ∨ (rows : Int) ≤ row ∨ col < 0 ∨ (cols : Int) ≤ col ∨
        (cellAtD b row col).isRevealed = true
    · rw [if_pos hg] at h
      exfalso
      have hq := (expandable_eq_true.mp hexp).2.1
      unfold revealedAt at h
      rw [hq] at h
      exact Bool.noConfusion h
    · rw [if_neg hg] at h ⊢
      dsimp only at h ⊢
      push_neg at hg
      obtain ⟨hg1, hg2, hg3, hg4, hg5⟩ := hg
      obtain ⟨cell, hcell⟩ := shaped_cellAt?_isSome hs hg1 hg2 hg3 hg4
      have hrev : cell.isRevealed = false := by
        rw [cellAtD_eq hcell] at hg5
        cases hx : cell.isRevealed
        · rfl
        · exact absurd hx hg5
      have hcnt1 : unrevealedCount (setAt b row col
          (fun cell => { cell with isRevealed := true })) < f := by
        have := unrevealedCount_reveal hcell hrev
        omega
      have hs1 : Shaped rows cols (setAt b row col
          (fun cell => { cell with isRevealed := true })) :=
        evolves_shaped (evolves_setReveal b row col) hs
      by_cases hm : (cellAtD (setAt b row col
          (fun cell => { cell with isRevealed := true })) row col).isMine = true
      · rw [if_pos hm] at h
        exfalso
        dsimp only at h
        rcases revealedAt_setReveal_cases h with ⟨hq1, hq2⟩ | hb
        · have hqm := (expandable_eq_true.mp hexp).2.2.1
          rw [hq1, hq2, cellAtD_eq hcell] at hqm
          rw [cellAtD_setAt_self hcell] at hm
          have hm' : cell.isMine = true := hm
          rw [hqm] at hm'
          exact Bool.noConfusion hm'
        · have hq := (expandable_eq_true.mp hexp).2.1
          unfold revealedAt at hb
          rw [hq] at hb
          exact Bool.noConfusion hb
      · rw [if_neg hm] at h ⊢
        by_cases hz : (cellAtD (setAt b row col
            (fun cell => { cell with isRevealed := true })) row col).neighborMines = 0
        · rw [if_pos hz] at h ⊢
          dsimp only at h ⊢
          by_cases hqo : q.1 = row ∧ q.2 = col
          · obtain ⟨hq1, hq2⟩ := hqo
            rw [hq1, hq2]
            rw [hq1, hq2] at hin
            exact revealFold_visits rows cols f row col (by omega) offsets _ hs1 d hd hin
          · have hne : ¬(row = q.1 ∧ col = q.2) :=
              fun hx => hqo ⟨hx.1.symm, hx.2.symm⟩
            have hrev1 : revealedAt (setAt b row col
                (fun cell => { cell with isRevealed := true })) q.1 q.2 = false := by
              unfold revealedAt
              rw [cellAtD_setAt_ne _ hne]
              exact (expandable_eq_true.mp hexp).2.1
            exact revealFold_exp rows cols f row col ih offsets _ hs1 hcnt1 q
              (expandable_evolve (evolves_setReveal b row col) hexp hrev1) h d hd hin
        · rw [if_neg hz] at h
          exfalso
          dsimp only at h
          rcases revealedAt_setReveal_cases h with ⟨hq1, hq2⟩ | hb
          · have hqz := (expandable_eq_true.mp hexp).2.2.2
            rw [hq1, hq2, cellAtD_eq hcell] at hqz
            rw [cellAtD_setAt_self hcell] at hz
            have hz' : cell.neighborMines ≠ 0 := hz
            exact hz' hqz
          · have hq := (expandable_eq_true.mp hexp).2.1
            unfold revealedAt at hb
            rw [hq] at hb
            exact Bool.noConfusion hb

end GM1

namespace GM1

theorem revealFold_fuel_congr (rows cols f1 f2 : Nat) (row col : Int)
    (IH : ∀ (g : Nat) (b : Board) (r c : Int), Shaped rows cols b →
      unrevealedCount b < f1 → unrevealedCount b < g →
      revealFuelB rows cols f1 b r c = revealFuelB rows cols g b r c) :
    ∀ (l : List (Int × Int)) (acc : Board), Shaped rows cols acc →
      unrevealedCount acc < f1 → unrevealedCount acc < f2 →
      List.foldl
        (fun acc d => (revealFuelB rows cols f1 acc (row + d.1) (col + d.2)).1) acc l =
      List.foldl
        (fun acc d => (revealFuelB rows cols f2 acc (row + d.1) (col + d.2)).1) acc l := by
  intro l
  induction l with
  | nil => intro acc _ _ _; rfl
  | cons d l ihl =>
    intro acc hs hc1 hc2
    simp only [List.foldl_cons]
    have hstep : (revealFuelB rows cols f1 acc (row + d.1) (col + d.2)).1 =
        (revealFuelB rows cols f2 acc (row + d.1) (col + d.2)).1 := by
      rw [IH f2 acc (row + d.1) (col + d.2) hs hc1 hc2]
    rw [hstep]
    have hev := evolves_revealFuelB rows cols f2 acc (row + d.1) (col + d.2)
    exact ihl _ (evolves_shaped hev hs)
      (lt_of_le_of_lt hev.2.2.2.2 hc1) (lt_of_le_of_lt hev.2.2.2.2 hc2)

/-- On a well-formed board, any fuel above the unrevealed-cell count gives
the same result: the fuel `unrevealedCount + 1` used by `revealCell` is not
an approximation but the exact semantics of the unbounded source
recursion. -/
theorem revealFuelB_fuel_congr (rows cols : Nat) :
    ∀ (f1 f2 : Nat) (b : Board) (row col : Int),
      Shaped rows cols b → unrevealedCount b < f1 → unrevealedCount b < f2 →
      revealFuelB rows cols f1 b row col = revealFuelB rows cols f2 b row col := by
  intro f1
  induction f1 with
  | zero => intro f2 b row col _ h1 _; exact absurd h1 (by omega)
  | succ f1 ih =>
    intro f2 b row col hs h1 h2
    obtain ⟨f2', rfl⟩ : ∃ k, f2 = k + 1 := ⟨f2 - 1, by omega⟩
    rw [revealFuelB_succ, revealFuelB_succ]
    by_cases hg : row < 0 ∨ (rows : Int) ≤ row ∨ col < 0 ∨ (cols : Int) ≤ col ∨
        (cellAtD b row col).isRevealed = true
    · rw [if_pos hg, if_pos hg]
    · rw [if_neg hg, if_neg hg]
      dsimp only
      push_neg at hg
      obtain ⟨hg1, hg2, hg3, hg4, hg5⟩ := hg
      obtain ⟨cell, hcell⟩ := shaped_cellAt?_isSome hs hg1 hg2 hg3 hg4
      have hrev : cell.isRevealed = false := by
        rw [cellAtD_eq hcell] at hg5
        cases hx : cell.isRevealed
        · rfl
        · exact absurd hx hg5
      have hdec := unrevealedCount_reveal hcell hrev
      have hcnt1 : unrevealedCount (setAt b row col
          (fun cell => { cell with isRevealed := true })) < f1 := by omega
      have hcnt2 : unrevealedCount (setAt b row col
          (fun cell => { cell with isRevealed := true })) < f2' := by omega
      have hs1 : Shaped rows cols (setAt b row col
          (fun cell => { cell with isRevealed := true })) :=
        evolves_shaped (evolves_setReveal b row col) hs
      by_cases hm : (cellAtD (setAt b row col
          (fun cell => { cell with isRevealed := true })) row col).isMine = true
      · rw [if_pos hm, if_pos hm]
      · rw [if_neg hm, if_neg hm]
        by_cases hz : (cellAtD (setAt b row col
            (fun cell => { cell with isRevealed := true })) row col).neighborMines = 0
        · rw [if_pos hz, if_pos hz]
          rw [revealFold_fuel_congr rows cols f1 f2' row col
            (fun g b r c => ih g b r c) offsets _ hs1 hcnt1 hcnt2]
        · rw [if_neg hz, if_neg hz]

theorem revealFuelB_complete (rows cols : Nat) (b : Board) (row col : Int)
    (hs : Shaped rows cols b) :
    ∀ q : Int × Int, Reach rows cols b (row, col) q → inB rows cols q = true →
      revealedAt (revealFuelB rows cols (unrevealedCount b + 1) b row col).1
        q.1 q.2 = true := by
  intro q hreach
  induction hreach with
  | base =>
    intro hin
    have hb := inB_eq_true.mp hin
    exact revealFuelB_origin rows cols _ b row col (by omega) hs
      hb.1 hb.2.1 hb.2.2.1 hb.2.2.2
  | step p d _ hexp hd ih =>
    intro hin
    have hinp : inB rows cols p = true := (expandable_eq_true.mp hexp).1
    exact revealFuelB_exp rows cols (unrevealedCount b + 1) b row col (by omega) hs
      p hexp (ih hinp) d hd hin

end GM1

/-! Mine-count lemmas for the constructor. -/

theorem mineCount_cons (row : List CellState) (t : Board) :
    mineCount (row :: t) =
      row.countP (fun cell => cell.isMine) + mineCount t := by
  simp [mineCount]

theorem mineCount_set_add (b : Board) (r : Nat) {row : List CellState}
    (h : b[r]? = some row) (row' : List CellState) :
    mineCount (b.set r row') + row.countP (fun cell => cell.isMine) =
      mineCount b + row'.countP (fun cell => cell.isMine) := by
  induction b generalizing r with
  | nil => simp at h
  | cons a t ih =>
    cases r with
    | zero =>
      simp only [List.getElem?_cons_zero, Option.some_inj] at h
      subst h
      simp only [List.set_cons_zero, mineCount_cons]
      omega
    | succ n =>
      simp only [List.getElem?_cons_succ] at h
      simp only [List.set_cons_succ, mineCount_cons]
      have := ih n h
      omega

theorem mineCount_setN_add {b : Board} {r c : Nat} {cell : CellState}
    (h : getN b r c = some cell) (f : CellState → CellState) :
    mineCount (setN b r c f) + (if cell.isMine then 1 else 0) =
      mineCount b + (if (f cell).isMine then 1 else 0) := by
  unfold getN at h
  unfold setN
  cases hb : b[r]? with
  | none => rw [hb] at h; simp at h
  | some row =>
    rw [hb, Option.some_bind] at h
    dsimp only
    rw [h]
    dsimp only
    have h1 := mineCount_set_add b r hb (row.set c (f cell))
    have h2 := countP_set_add (fun z => z.isMine) row c h (f cell)
    omega

theorem mineCount_setAt_add {b : Board} {row col : Int} {cell : CellState}
    (h : cellAt? b row col = some cell) (f : CellState → CellState) :
    mineCount (setAt b row col f) + (if cell.isMine then 1 else 0) =
      mineCount b + (if (f cell).isMine then 1 else 0) := by
  unfold cellAt? at h
  unfold setAt
  by_cases hpos : 0 ≤ row ∧ 0 ≤ col
  · rw [if_pos hpos] at h
    rw [if_pos hpos]
    exact mineCount_setN_add h f
  · rw [if_neg hpos] at h
    simp at h

theorem shaped_setAt {rows cols : Nat} {b : Board} (hs : Shaped rows cols b)
    (row col : Int) (f : CellState → CellState) :
    Shaped rows cols (setAt b row col f) := by
  refine shaped_of_get ((length_setAt b row col f).trans hs.1) ?_
  intro i row' hrow'
  have h := rowlen_setAt b row col f i
  rw [hrow'] at h
  cases hb : b[i]? with
  | none => rw [hb] at h; simp at h
  | some rowb =>
    rw [hb] at h
    simp only [Option.map_some'] at h
    rw [Option.some_inj] at h
    rw [h]
    exact hs.rowlen i rowb hb

/-- Setting the mine flag changes no other field of any cell. -/
theorem cellAtD_setMine_fields (b : Board) (row col : Int) (r c : Int) :
    (cellAtD (setAt b row col
        (fun cell => { cell with isMine := true })) r c).isRevealed
      = (cellAtD b r c).isRevealed ∧
    (cellAtD (setAt b row col
        (fun cell => { cell with isMine := true })) r c).isFlagged
      = (cellAtD b r c).isFlagged ∧
    (cellAtD (setAt b row col
        (fun cell => { cell with isMine := true })) r c).neighborMines
      = (cellAtD b r c).neighborMines := by
  by_cases hrc : row = r ∧ col = c
  · obtain ⟨rfl, rfl⟩ := hrc
    cases hcell : cellAt? b row col with
    | none => rw [setAt_eq_of_none hcell]; exact ⟨rfl, rfl, rfl⟩
    | some cell => rw [cellAtD_setAt_self hcell, cellAtD_eq hcell]; exact ⟨rfl, rfl, rfl⟩
  · rw [cellAtD_setAt_ne _ hrc]; exact ⟨rfl, rfl, rfl⟩

namespace GM1

/-- What a terminating run of the mine-placement loop guarantees: shape kept,
exactly `n` more mines, and no other field of any cell touched. -/
theorem placeMines_spec (rows cols : Nat) :
    ∀ (draws : List (Nat × Nat)) (n : Nat) (b b' : Board),
      Shaped rows cols b →
      (∀ dr ∈ draws, dr.1 < rows ∧ dr.2 < cols) →
      placeMines b n draws = some b' →
      Shaped rows cols b' ∧ mineCount b' = mineCount b + n ∧
        (∀ r c : Int,
          (cellAtD b' r c).isRevealed = (cellAtD b r c).isRevealed ∧
          (cellAtD b' r c).isFlagged = (cellAtD b r c).isFlagged ∧
          (cellAtD b' r c).neighborMines = (cellAtD b r c).neighborMines) := by
  intro draws
  induction draws with
  | nil =>
    intro n b b' hs _ hp
    cases n with
    | zero =>
      simp only [placeMines, Option.some_inj] at hp
      subst hp
      exact ⟨hs, by omega, fun r c => ⟨rfl, rfl, rfl⟩⟩
    | succ n => simp [placeMines] at hp
  | cons dr draws ih =>
    intro n b b' hs hvalid hp
    cases n with
    | zero =>
      simp only [placeMines, Option.some_inj] at hp
      subst hp
      exact ⟨hs, by omega, fun r c => ⟨rfl, rfl, rfl⟩⟩
    | succ n =>
      obtain ⟨r0, c0⟩ := dr
      have hval0 := hvalid (r0, c0) (List.mem_cons_self _ _)
      have hvrest : ∀ dr ∈ draws, dr.1 < rows ∧ dr.2 < cols :=
        fun dr hdr => hvalid dr (List.mem_cons_of_mem _ hdr)
      simp only [placeMines] at hp
      by_cases hm : (cellAtD b (r0 : Int) (c0 : Int)).isMine = true
      · rw [if_pos hm] at hp
        exact ih (n + 1) b b' hs hvrest hp
      · rw [if_neg hm] at hp
        obtain ⟨cell, hcell⟩ := shaped_cellAt?_isSome hs
          (Int.natCast_nonneg r0) (by exact_mod_cast hval0.1)
          (Int.natCast_nonneg c0) (by exact_mod_cast hval0.2)
        have hcm : cell.isMine = false := by
          rw [cellAtD_eq hcell] at hm
          cases hx : cell.isMine
          · rfl
          · exact absurd hx hm
        obtain ⟨hs', hcount, hfields⟩ :=
          ih n _ b' (shaped_setAt hs _ _ _) hvrest hp
        refine ⟨hs', ?_, ?_⟩
        · have hmc := mineCount_setAt_add hcell (fun cell => { cell with isMine := true })
          rw [hcm] at hmc
          simp at hmc
          omega
        · intro r c
          obtain ⟨h1, h2, h3⟩ := hfields r c
          obtain ⟨g1, g2, g3⟩ := cellAtD_setMine_fields b (r0 : Int) (c0 : Int) r c
          exact ⟨h1.trans g1, h2.trans g2, h3.trans g3⟩

theorem cellAtD_calcStep_fields (rows cols : Nat) (b : Board) (rc : Nat × Nat)
    (r c : Int) :
    (cellAtD (calcStep rows cols b rc) r c).isMine = (cellAtD b r c).isMine ∧
    (cellAtD (calcStep rows cols b rc) r c).isRevealed = (cellAtD b r c).isRevealed ∧
    (cellAtD (calcStep rows cols b rc) r c).isFlagged = (cellAtD b r c).isFlagged := by
  unfold calcStep
  split
  · exact ⟨rfl, rfl, rfl⟩
  · by_cases hrc : ((rc.1 : Int) = r ∧ (rc.2 : Int) = c)
    · obtain ⟨h1, h2⟩ := hrc
      subst h1
      subst h2
      cases hcell : cellAt? b (rc.1 : Int) (rc.2 : Int) with
      | none => rw [setAt_eq_of_none hcell]; exact ⟨rfl, rfl, rfl⟩
      | some cell =>
        rw [cellAtD_setAt_self hcell, cellAtD_eq hcell]
        exact ⟨rfl, rfl, rfl⟩
    · rw [cellAtD_setAt_ne _ hrc]
      exact ⟨rfl, rfl, rfl⟩

theorem shaped_calcStep {rows cols : Nat} {b : Board} (hs : Shaped rows cols b)
    (rc : Nat × Nat) : Shaped rows cols (calcStep rows cols b rc) := by
  unfold calcStep
  split
  · exact hs
  · exact shaped_setAt hs _ _ _

theorem mineCount_calcStep (rows cols : Nat) (b : Board) (rc : Nat × Nat) :
    mineCount (calcStep rows cols b rc) = mineCount b := by
  unfold calcStep
  split
  · rfl
  · cases hcell : cellAt? b (rc.1 : Int) (rc.2 : Int) with
    | none => rw [setAt_eq_of_none hcell]
    | some cell =>
      have := mineCount_setAt_add hcell
        (fun cell => { cell with neighborMines := neighborLoopCount rows cols b rc.1 rc.2 })
      dsimp only at this
      omega

theorem neighborLoopCount_congr (rows cols : Nat) {b b' : Board}
    (h : ∀ r c : Int, (cellAtD b' r c).isMine = (cellAtD b r c).isMine)
    (row col : Int) :
    neighborLoopCount rows cols b' row col = neighborLoopCount rows cols b row col := by
  unfold neighborLoopCount
  apply List.countP_congr
  intro d _
  rw [h (row + d.1) (col + d.2)]

theorem calcFold_mine (rows cols : Nat) :
    ∀ (l : List (Nat × Nat)) (b : Board) (r c : Nat) (cell : CellState),
      cellAt? b (r : Int) (c : Int) = some cell → cell.isMine = true →
      cellAt? (l.foldl (calcStep rows cols) b) (r : Int) (c : Int) = some cell := by
  intro l
  induction l with
  | nil => intro b r c cell hcell _; exact hcell
  | cons rc0 l ih =>
    intro b r c cell hcell hm
    simp only [List.foldl_cons]
    refine ih _ r c cell ?_ hm
    unfold calcStep
    split
    · exact hcell
    · by_cases hrc : ((rc0.1 : Int) = (r : Int) ∧ (rc0.2 : Int) = (c : Int))
      · obtain ⟨h1, h2⟩ := hrc
        rename_i hnm
        exfalso
        rw [h1, h2, cellAtD_eq hcell, hm] at hnm
        exact hnm rfl
      · rw [cellAt?_setAt_ne _ hrc]
        exact hcell

theorem calcFold_nonmine (rows cols : Nat) :
    ∀ (l : List (Nat × Nat)) (b : Board) (r c : Nat) (cell : CellState),
      cellAt? b (r : Int) (c : Int) = some cell → cell.isMine = false →
      cellAt? (l.foldl (calcStep rows cols) b) (r : Int) (c : Int) =
        some (if (r, c) ∈ l
          then { cell with neighborMines := neighborLoopCount rows cols b r c }
          else cell) := by
  intro l
  induction l with
  | nil =>
    intro b r c cell hcell _
    simp only [List.foldl_nil, List.not_mem_nil, if_false]
    exact hcell
  | cons rc0 l ih =>
    intro b r c cell hcell hm
    simp only [List.foldl_cons]
    have hmpat : ∀ r' c' : Int,
        (cellAtD (calcStep rows cols b rc0) r' c').isMine = (cellAtD b r' c').isMine :=
      fun r' c' => (cellAtD_calcStep_fields rows cols b rc0 r' c').1
    have hcnt := neighborLoopCount_congr rows cols hmpat (r : Int) (c : Int)
    by_cases hrc : rc0 = (r, c)
    · subst hrc
      have hstep : calcStep rows cols b (r, c) =
          setAt b (r : Int) (c : Int) (fun cell =>
            { cell with neighborMines := neighborLoopCount rows cols b r c }) := by
        unfold calcStep
        rw [if_neg (by rw [cellAtD_eq hcell, hm]; exact Bool.noConfusion)]
      have hcell1 : cellAt? (calcStep rows cols b (r, c)) (r : Int) (c : Int) =
          some { cell with neighborMines := neighborLoopCount rows cols b r c } := by
        rw [hstep]
        exact cellAt?_setAt_self hcell _
      have hres := ih (calcStep rows cols b (r, c)) r c _ hcell1 hm
      rw [hres, hcnt]
      rw [if_pos (List.mem_cons_self _ _)]
      by_cases hl : (r, c) ∈ l
      · rw [if_pos hl]
      · rw [if_neg hl]
    · have hcell1 : cellAt? (calcStep rows cols b rc0) (r : Int) (c : Int) = some cell := by
        unfold calcStep
        split
        · exact hcell
        · rw [cellAt?_setAt_ne _ (fun hx => hrc (Prod.ext_iff.mpr
            ⟨by exact_mod_cast hx.1, by exact_mod_cast hx.2⟩))]
          exact hcell
      have hres := ih (calcStep rows cols b rc0) r c cell hcell1 hm
      rw [hres, hcnt]
      have hmem : ((r, c) ∈ rc0 :: l) ↔ ((r, c) ∈ l) := by
        rw [List.mem_cons]
        constructor
        · rintro (h | h)
          · exact absurd h.symm hrc
          · exact h
        · exact Or.inr
      by_cases hl : (r, c) ∈ l
      · rw [if_pos hl, if_pos (hmem.mpr hl)]
      · rw [if_neg hl, if_neg (fun hx => hl (hmem.mp hx))]

theorem mem_idxList {rows cols r c : Nat} :
    (r, c) ∈ idxList rows cols ↔ r < rows ∧ c < cols := by
  unfold idxList
  simp only [List.mem_flatten, List.mem_map, List.mem_range]
  constructor
  · rintro ⟨l, ⟨r', hr', rfl⟩, hmem⟩
    simp only [List.mem_map, List.mem_range, Prod.mk.injEq] at hmem
    obtain ⟨c', hc', rfl, rfl⟩ := hmem
    exact ⟨hr', hc'⟩
  · rintro ⟨hr, hc⟩
    refine ⟨(List.range cols).map (fun c => (r, c)), ⟨r, hr, rfl⟩, ?_⟩
    rw [List.mem_map]
    exact ⟨c, List.mem_range.mpr hc, rfl⟩

theorem cellAtD_calcFold_fields (rows cols : Nat) :
    ∀ (l : List (Nat × Nat)) (b : Board) (r c : Int),
      (cellAtD (l.foldl (calcStep rows cols) b) r c).isMine = (cellAtD b r c).isMine ∧
      (cellAtD (l.foldl (calcStep rows cols) b) r c).isRevealed
        = (cellAtD b r c).isRevealed ∧
      (cellAtD (l.foldl (calcStep rows cols) b) r c).isFlagged
        = (cellAtD b r c).isFlagged := by
  intro l
  induction l with
  | nil => intro b r c; exact ⟨rfl, rfl, rfl⟩
  | cons rc0 l ih =>
    intro b r c
    simp only [List.foldl_cons]
    obtain ⟨h1, h2, h3⟩ := ih (calcStep rows cols b rc0) r c
    obtain ⟨g1, g2, g3⟩ := cellAtD_calcStep_fields rows cols b rc0 r c
    exact ⟨h1.trans g1, h2.trans g2, h3.trans g3⟩

theorem shaped_calcFold {rows cols : Nat} :
    ∀ (l : List (Nat × Nat)) {b : Board}, Shaped rows cols b →
      Shaped rows cols (l.foldl (calcStep rows cols) b)
  | [], _, hs => hs
  | rc0 :: l, _, hs => shaped_calcFold l (shaped_calcStep hs rc0)

theorem mineCount_calcFold (rows cols : Nat) :
    ∀ (l : List (Nat × Nat)) (b : Board),
      mineCount (l.foldl (calcStep rows cols) b) = mineCount b
  | [], _ => rfl
  | rc0 :: l, b => by
    simp only [List.foldl_cons]
    rw [mineCount_calcFold rows cols l (calcStep rows cols b rc0),
      mineCount_calcStep rows cols b rc0]

end GM1

/-- The source's nine-offset count equals the specification's eight-neighbour
count on a non-mine cell: the (0, 0) self-offset contributes nothing. -/
theorem neighborLoopCount_eq_eight {rows cols : Nat} {b : Board} {row col : Int}
    (hm : (cellAtD b row col).isMine = false) :
    GM1.neighborLoopCount rows cols b row col = neighborMineCount8 rows cols b row col := by
  unfold GM1.neighborLoopCount neighborMineCount8 offsets neighborOffsets8
  simp only [List.countP_cons, List.countP_nil, add_zero, hm, Bool.and_false,
    Bool.false_eq_true, if_false]

theorem cellAt?_bounds {rows cols : Nat} {b : Board} (hs : Shaped rows cols b)
    {row col : Int} {cell : CellState} (h : cellAt? b row col = some cell) :
    0 ≤ row ∧ row < (rows : Int) ∧ 0 ≤ col ∧ col < (cols : Int) := by
  have hlen := hs.1
  unfold cellAt? getN at h
  by_cases hpos : 0 ≤ row ∧ 0 ≤ col
  · rw [if_pos hpos] at h
    cases hb : b[row.toNat]? with
    | none => rw [hb] at h; simp at h
    | some rowList =>
      rw [hb, Option.some_bind] at h
      have hrn : row.toNat < b.length := by
        by_contra hge
        rw [List.getElem?_eq_none (by omega)] at hb
        exact Option.noConfusion hb
      have hcn : col.toNat < rowList.length := by
        by_contra hge
        rw [List.getElem?_eq_none (by omega)] at h
        exact Option.noConfusion h
      have hclen := hs.rowlen row.toNat rowList hb
      refine ⟨hpos.1, ?_, hpos.2, ?_⟩
      · omega
      · rw [hclen] at hcn; omega
  · rw [if_neg hpos] at h
    exact Option.noConfusion h

theorem shaped_createEmptyBoard (rows cols : Nat) :
    Shaped rows cols (GM1.createEmptyBoard rows cols) := by
  unfold GM1.createEmptyBoard
  refine shaped_of_get (List.length_replicate rows _) ?_
  intro i row hrow
  rw [List.getElem?_replicate] at hrow
  by_cases hi : i < rows
  · rw [if_pos hi, Option.some_inj] at hrow
    rw [← hrow]
    exact List.length_replicate cols _
  · rw [if_neg hi] at hrow
    exact Option.noConfusion hrow

theorem cellAtD_createEmptyBoard (rows cols : Nat) (r c : Int) :
    cellAtD (GM1.createEmptyBoard rows cols) r c = emptyCell := by
  unfold cellAtD cellAt? getN GM1.createEmptyBoard
  by_cases hpos : 0 ≤ r ∧ 0 ≤ c
  · rw [if_pos hpos, List.getElem?_replicate]
    by_cases hi : r.toNat < rows
    · rw [if_pos hi, Option.some_bind, List.getElem?_replicate]
      by_cases hj : c.toNat < cols
      · rw [if_pos hj]
        rfl
      · rw [if_neg hj]
        rfl
    · rw [if_neg hi]
      rfl
  · rw [if_neg hpos]
    rfl

theorem countP_mine_replicate (cols : Nat) :
    (List.replicate cols emptyCell).countP (fun cell => cell.isMine) = 0 := by
  induction cols with
  | zero => rfl
  | succ n ih => rw [List.replicate_succ, List.countP_cons]; simp [ih, emptyCell]

theorem mineCount_createEmptyBoard (rows cols : Nat) :
    mineCount (GM1.createEmptyBoard rows cols) = 0 := by
  unfold GM1.createEmptyBoard
  induction rows with
  | zero => rfl
  | succ n ih => rw [List.replicate_succ, mineCount_cons, countP_mine_replicate, ih]

namespace GM1

/-- What a terminating construction guarantees: shape, exact mine count, and
all cells unrevealed and unflagged. -/
theorem initBoard_spec (rows cols mines : Nat) (draws : List (Nat × Nat))
    (b' : Board) (hvalid : ∀ dr ∈ draws, dr.1 < rows ∧ dr.2 < cols)
    (h : initBoard rows cols mines draws = some b') :
    Shaped rows cols b' ∧ mineCount b' = mines ∧
      ∀ r c : Int, (cellAtD b' r c).isRevealed = false ∧
        (cellAtD b' r c).isFlagged = false := by
  unfold initBoard at h
  rw [Option.map_eq_some'] at h
  obtain ⟨bp, hp, rfl⟩ := h
  obtain ⟨hsp, hcp, hfp⟩ := placeMines_spec rows cols draws mines
    (createEmptyBoard rows cols) bp (shaped_createEmptyBoard rows cols) hvalid hp
  unfold calculateNeighborMines
  refine ⟨shaped_calcFold (idxList rows cols) hsp, ?_, ?_⟩
  · rw [mineCount_calcFold rows cols (idxList rows cols) bp, hcp,
      mineCount_createEmptyBoard]
    omega
  · intro r c
    obtain ⟨_, h2, h3⟩ := cellAtD_calcFold_fields rows cols (idxList rows cols) bp r c
    obtain ⟨f1, f2, _⟩ := hfp r c
    constructor
    · rw [h2, f1, cellAtD_createEmptyBoard]
      rfl
    · rw [h3, f2, cellAtD_createEmptyBoard]
      rfl

/-- After a terminating construction, every non-mine cell stores exactly the
number of mines among its eight in-bounds neighbours of the final board. -/
theorem initBoard_neighbor (rows cols mines : Nat) (draws : List (Nat × Nat))
    (b' : Board) (hvalid : ∀ dr ∈ draws, dr.1 < rows ∧ dr.2 < cols)
    (h : initBoard rows cols mines draws = some b') :
    ∀ (row col : Int) (cell : CellState), cellAt? b' row col = some cell →
      cell.isMine = false →
      cell.neighborMines = neighborMineCount8 rows cols b' row col := by
  unfold initBoard at h
  rw [Option.map_eq_some'] at h
  obtain ⟨bp, hp, rfl⟩ := h
  obtain ⟨hsp, _, _⟩ := placeMines_spec rows cols draws mines
    (createEmptyBoard rows cols) bp (shaped_createEmptyBoard rows cols) hvalid hp
  intro row col cell hcell hm
  have hs' : Shaped rows cols (calculateNeighborMines rows cols bp) := by
    unfold calculateNeighborMines
    exact shaped_calcFold _ hsp
  obtain ⟨h0r, hr, h0c, hc⟩ := cellAt?_bounds hs' hcell
  obtain ⟨cellp, hcellp⟩ := shaped_cellAt?_isSome hsp h0r hr h0c hc
  have hcellp' : cellAt? bp ((row.toNat : Nat) : Int) ((col.toNat : Nat) : Int) =
      some cellp := by
    rw [Int.toNat_of_nonneg h0r, Int.toNat_of_nonneg h0c]
    exact hcellp
  unfold calculateNeighborMines at hcell
  cases hmp : cellp.isMine with
  | true =>
    exfalso
    have hkeep := calcFold_mine rows cols (idxList rows cols) bp
      row.toNat col.toNat cellp hcellp' hmp
    rw [Int.toNat_of_nonneg h0r, Int.toNat_of_nonneg h0c] at hkeep
    rw [hkeep, Option.some_inj] at hcell
    rw [← hcell, hmp] at hm
    exact Bool.noConfusion hm
  | false =>
    have hmem : (row.toNat, col.toNat) ∈ idxList rows cols :=
      mem_idxList.mpr ⟨by omega, by omega⟩
    have hres := calcFold_nonmine rows cols (idxList rows cols) bp
      row.toNat col.toNat cellp hcellp' hmp
    rw [if_pos hmem] at hres
    rw [Int.toNat_of_nonneg h0r, Int.toNat_of_nonneg h0c] at hres
    rw [hres, Option.some_inj] at hcell
    have hnm : cell.neighborMines = neighborLoopCount rows cols bp row col := by
      rw [← hcell]
    have hpat : ∀ r c : Int,
        (cellAtD ((idxList rows cols).foldl (calcStep rows cols) bp) r c).isMine
          = (cellAtD bp r c).isMine :=
      fun r c => (cellAtD_calcFold_fields rows cols (idxList rows cols) bp r c).1
    have hcongr := neighborLoopCount_congr rows cols hpat row col
    have hmfinal : (cellAtD ((idxList rows cols).foldl (calcStep rows cols) bp)
        row col).isMine = false := by
      rw [cellAtD_eq hres]
      exact hmp
    rw [hnm, ← hcongr]
    unfold calculateNeighborMines
    exact neighborLoopCount_eq_eight hmfinal

end GM1

/-! Equivalence of the refactored engine (GM2) with the inline one (GM1). -/

theorem placeMines_eq2 : ∀ (draws : List (Nat × Nat)) (b : Board) (n : Nat),
    GM2.placeMines b n draws = GM1.placeMines b n draws := by
  intro draws
  induction draws with
  | nil => intro b n; cases n <;> rfl
  | cons dr draws ih =>
    intro b n
    cases n with
    | zero => rfl
    | succ n =>
      obtain ⟨r, c⟩ := dr
      simp only [GM2.placeMines, GM1.placeMines]
      split
      · exact ih b (n + 1)
      · exact ih _ n

theorem isValidCell_eq_true {rows cols : Nat} {row col : Int} :
    GM2.isValidCell rows cols row col = true ↔
      0 ≤ row ∧ row < (rows : Int) ∧ 0 ≤ col ∧ col < (cols : Int) := by
  unfold GM2.isValidCell
  simp only [Bool.and_eq_true, decide_eq_true_eq]
  exact ⟨fun ⟨⟨⟨a, b⟩, c⟩, d⟩ => ⟨a, b, c, d⟩, fun ⟨a, b, c, d⟩ => ⟨⟨⟨a, b⟩, c⟩, d⟩⟩

theorem guard_eq2 (rows cols : Nat) (b : Board) (row col : Int) :
    ((!GM2.isValidCell rows cols row col || (cellAtD b row col).isRevealed) = true) ↔
      (row < 0 ∨ (rows : Int) ≤ row ∨ col < 0 ∨ (cols : Int) ≤ col ∨
        (cellAtD b row col).isRevealed = true) := by
  rw [Bool.or_eq_true, Bool.not_eq_true']
  constructor
  · rintro (hv | hrev)
    · have hnc : ¬(0 ≤ row ∧ row < (rows : Int) ∧ 0 ≤ col ∧ col < (cols : Int)) := by
        intro hc
        rw [isValidCell_eq_true.mpr hc] at hv
        exact Bool.noConfusion hv
      have : row < 0 ∨ (rows : Int) ≤ row ∨ col < 0 ∨ (cols : Int) ≤ col := by omega
      rcases this with h | h | h | h
      · exact Or.inl h
      · exact Or.inr (Or.inl h)
      · exact Or.inr (Or.inr (Or.inl h))
      · exact Or.inr (Or.inr (Or.inr (Or.inl h)))
    · exact Or.inr (Or.inr (Or.inr (Or.inr hrev)))
  · intro h
    by_cases hrev : (cellAtD b row col).isRevealed = true
    · exact Or.inr hrev
    · left
      cases hx : GM2.isValidCell rows cols row col
      · rfl
      · exfalso
        have hc := isValidCell_eq_true.mp hx
        rcases h with h | h | h | h | h
        · omega
        · omega
        · omega
        · omega
        · exact hrev h

namespace GM2

theorem revealFuelB_unfold (rows cols fuel : Nat) (b : Board) (row col : Int) :
    revealFuelB rows cols (fuel + 1) b row col =
      if !isValidCell rows cols row col || (cellAtD b row col).isRevealed then
        (b, false)
      else
        let b1 := setAt b row col (fun cell => { cell with isRevealed := true })
        if (cellAtD b1 row col).isMine then
          (b1, true)
        else if (cellAtD b1 row col).neighborMines = 0 then
          (offsets.foldl
            (fun acc d => (revealFuelB rows cols fuel acc (row + d.1) (col + d.2)).1)
            b1, false)
        else
          (b1, false) := rfl

end GM2

theorem revealFuelB_eq2 (rows cols : Nat) :
    ∀ (f : Nat) (b : Board) (row col : Int),
      GM2.revealFuelB rows cols f b row col = GM1.revealFuelB rows cols f b row col := by
  intro f
  induction f with
  | zero => intro b row col; rfl
  | succ f ih =>
    intro b row col
    rw [GM2.revealFuelB_unfold, GM1.revealFuelB_succ]
    by_cases hg : row < 0 ∨ (rows : Int) ≤ row ∨ col < 0 ∨ (cols : Int) ≤ col ∨
        (cellAtD b row col).isRevealed = true
    · rw [if_pos ((guard_eq2 rows cols b row col).mpr hg), if_pos hg]
    · rw [if_neg (fun hx => hg ((guard_eq2 rows cols b row col).mp hx)), if_neg hg]
      dsimp only
      simp only [ih]

theorem revealCell_eq2 (gm : GameManager) (row col : Int) :
    GM2.revealCell gm row col = GM1.revealCell gm row col := by
  unfold GM2.revealCell GM1.revealCell
  rw [revealFuelB_eq2]

theorem initBoard_eq2 (rows cols mines : Nat) (draws : List (Nat × Nat)) :
    GM2.initBoard rows cols mines draws = GM1.initBoard rows cols mines draws := by
  unfold GM2.initBoard GM1.initBoard
  rw [placeMines_eq2]
  rfl

theorem mkGameManager_eq2 (d : Difficulty) (draws : List (Nat × Nat)) :
    GM2.mkGameManager d draws = GM1.mkGameManager d draws := by
  unfold GM2.mkGameManager GM1.mkGameManager
  cases d <;> simp only [GM2.DIFFICULTY_SETTINGS, GM1.DIFFICULTY_SETTINGS] <;>
    rw [initBoard_eq2]

/-- C5: `checkWinCondition()` is true exactly when every cell of the board
is a mine or revealed; flags play no role.  The model function is pure, so
it cannot mutate the board. -/
theorem claim5_win_condition (gm : GameManager) :
    GM1.checkWinCondition gm = true ↔
      ∀ (r c : Int) (cell : CellState), cellAt? gm.board r c = some cell →
        (cell.isMine = true ∨ cell.isRevealed = true) := by
  unfold GM1.checkWinCondition
  rw [List.all_eq_true]
  constructor
  · intro h r c cell hcell
    unfold cellAt? getN at hcell
    by_cases hpos : 0 ≤ r ∧ 0 ≤ c
    · rw [if_pos hpos] at hcell
      cases hb : gm.board[r.toNat]? with
      | none => rw [hb] at hcell; simp at hcell
      | some rowl =>
        rw [hb, Option.some_bind] at hcell
        have hmemrow : rowl ∈ gm.board := by
          obtain ⟨hlt, rfl⟩ := List.getElem?_eq_some_iff.mp hb
          exact List.getElem_mem hlt
        have hrow := h rowl hmemrow
        rw [List.all_eq_true] at hrow
        have hmemcell : cell ∈ rowl := by
          obtain ⟨hlt, rfl⟩ := List.getElem?_eq_some_iff.mp hcell
          exact List.getElem_mem hlt
        have hor := hrow cell hmemcell
        rcases Bool.or_eq_true .. |>.mp hor with h1 | h1
        · exact Or.inl h1
        · exact Or.inr h1
    · rw [if_neg hpos] at hcell
      exact Option.noConfusion hcell
  · intro h rowl hmem
    rw [List.all_eq_true]
    intro cell hcellmem
    obtain ⟨i, hi, rfl⟩ := List.getElem_of_mem hmem
    obtain ⟨j, hj, rfl⟩ := List.getElem_of_mem hcellmem
    have hcell : cellAt? gm.board (i : Int) (j : Int) = some (gm.board[i][j]) := by
      unfold cellAt? getN
      rw [if_pos ⟨by omega, by omega⟩]
      have h1 : ((i : Int)).toNat = i := by omega
      have h2 : ((j : Int)).toNat = j := by omega
      rw [h1, h2]
      rw [List.getElem?_eq_some_iff.mpr ⟨hi, rfl⟩, Option.some_bind]
      exact List.getElem?_eq_some_iff.mpr ⟨hj, rfl⟩
    rcases h (i : Int) (j : Int) _ hcell with h1 | h1
    · simp [h1]
    · simp [h1]

/-- C7: a `revealCell` call changes no cell field except `isRevealed`: the
positions that hold a cell are unchanged, and at every position `isMine`,
`isFlagged` and `neighborMines` keep their values — in particular a flagged
cell that becomes revealed stays flagged. -/
theorem claim7_reveal_frame (gm : GameManager) (row col r c : Int) :
    (cellAt? (GM1.revealCell gm row col).1.board r c).isSome
      = (cellAt? gm.board r c).isSome ∧
    (∀ cellB cellA : CellState, cellAt? gm.board r c = some cellB →
      cellAt? (GM1.revealCell gm row col).1.board r c = some cellA →
      cellA.isMine = cellB.isMine ∧ cellA.isFlagged = cellB.isFlagged ∧
        cellA.neighborMines = cellB.neighborMines) := by
  have he := GM1.evolves_revealFuelB gm.rows gm.cols
    (unrevealedCount gm.board + 1) gm.board row col
  exact ⟨evolves_isSome he r c,
    fun cellB cellA hB hA => evolves_cells he hB hA⟩

/-- C8: revealedness is monotone: neither `revealCell` (any arguments) nor a
non-throwing `toggleFlag` ever turns a revealed cell back to unrevealed. -/
theorem claim8_reveal_monotone (gm : GameManager) (row col r c : Int) :
    (revealedAt gm.board r c = true →
      revealedAt (GM1.revealCell gm row col).1.board r c = true) ∧
    (∀ gm' : GameManager, GM1.toggleFlag gm row col = some gm' →
      revealedAt gm.board r c = true → revealedAt gm'.board r c = true) := by
  constructor
  · exact (GM1.evolves_revealFuelB gm.rows gm.cols
      (unrevealedCount gm.board + 1) gm.board row col).2.2.2.1 r c
  · intro gm' hgm' hrev
    unfold GM1.toggleFlag at hgm'
    cases hcell : cellAt? gm.board row col with
    | none => rw [hcell] at hgm'; exact Option.noConfusion hgm'
    | some cell =>
      rw [hcell] at hgm'
      dsimp only at hgm'
      by_cases hr : cell.isRevealed = true
      · rw [if_pos hr, Option.some_inj] at hgm'
        rw [← hgm']
        exact hrev
      · rw [if_neg hr, Option.some_inj] at hgm'
        rw [← hgm']
        by_cases hrc : row = r ∧ col = c
        · obtain ⟨rfl, rfl⟩ := hrc
          unfold revealedAt at hrev ⊢
          rw [cellAtD_eq hcell] at hrev
          rw [cellAtD_setAt_self hcell]
          exact hrev
        · unfold revealedAt
          rw [cellAtD_setAt_ne _ hrc]
          exact hrev

/-- C10: the refactored engine of `src/unnamed/part_000` is behaviourally
equivalent to the inline engine of `GameManager.ts`: identical construction
from the same draws, and identical `revealCell`, `toggleFlag` and
`checkWinCondition` on every state. -/
theorem claim10_refactor_equiv :
    (∀ (d : Difficulty) (draws : List (Nat × Nat)),
      GM2.mkGameManager d draws = GM1.mkGameManager d draws) ∧
    (∀ (gm : GameManager) (row col : Int),
      GM2.revealCell gm row col = GM1.revealCell gm row col) ∧
    (∀ (gm : GameManager) (row col : Int),
      GM2.toggleFlag gm row col = GM1.toggleFlag gm row col) ∧
    (∀ gm : GameManager, GM2.checkWinCondition gm = GM1.checkWinCondition gm) := by
  exact ⟨mkGameManager_eq2, revealCell_eq2, fun gm row col => rfl, fun gm => rfl⟩

/-- C4: revealing an in-bounds, unrevealed mine returns `true` (mine hit),
marks exactly that cell revealed, and performs no neighbour expansion: every
other position of the board is untouched. -/
theorem claim4_reveal_mine (gm : GameManager) (row col : Int) (cell : CellState)
    (hcell : cellAt? gm.board row col = some cell)
    (h0r : 0 ≤ row) (hr : row < (gm.rows : Int))
    (h0c : 0 ≤ col) (hc : col < (gm.cols : Int))
    (hunrev : cell.isRevealed = false) (hmine : cell.isMine = true) :
    (GM1.revealCell gm row col).2 = true ∧
    cellAt? (GM1.revealCell gm row col).1.board row col =
      some { cell with isRevealed := true } ∧
    ∀ r c : Int, ¬(r = row ∧ c = col) →
      cellAt? (GM1.revealCell gm row col).1.board r c = cellAt? gm.board r c := by
  have hg : ¬(row < 0 ∨ (gm.rows : Int) ≤ row ∨ col < 0 ∨ (gm.cols : Int) ≤ col ∨
      (cellAtD gm.board row col).isRevealed = true) := by
    push_neg
    refine ⟨by omega, by omega, by omega, by omega, ?_⟩
    rw [cellAtD_eq hcell, hunrev]
    exact Bool.false_ne_true
  have hm1 : (cellAtD (setAt gm.board row col
      (fun cell => { cell with isRevealed := true })) row col).isMine = true := by
    rw [cellAtD_setAt_self hcell]
    exact hmine
  have hres : GM1.revealCell gm row col =
      ({ gm with board := (setAt gm.board row col
        (fun cell => { cell with isRevealed := true })) }, true) := by
    unfold GM1.revealCell
    rw [GM1.revealFuelB_succ, if_neg hg]
    dsimp only
    rw [if_pos hm1]
  rw [hres]
  refine ⟨rfl, cellAt?_setAt_self hcell _, ?_⟩
  intro r c hrc
  exact cellAt?_setAt_ne _ (fun hx => hrc ⟨hx.1.symm, hx.2.symm⟩)

/-- C4 witness: the mine of the concrete board `sampleGm` at (0,3). -/
theorem claim4_witness :
    (GM1.revealCell sampleGm 0 3).2 = true ∧
    cellAt? (GM1.revealCell sampleGm 0 3).1.board 0 3 =
      some { cellMine with isRevealed := true } ∧
    ∀ r c : Int, ¬(r = 0 ∧ c = 3) →
      cellAt? (GM1.revealCell sampleGm 0 3).1.board r c = cellAt? sampleGm.board r c :=
  claim4_reveal_mine sampleGm 0 3 cellMine (by decide) (by decide) (by decide)
    (by decide) (by decide) (by decide) (by decide)

/-- C6 (amended): an out-of-range or already-revealed `revealCell` is a
silent no-op returning `false`; an out-of-range `toggleFlag` is NOT a silent
no-op: the unguarded read `board[row][col].isRevealed` throws (modelled
`none`), leaving the board unchanged but propagating an error. -/
theorem claim6_out_of_range (gm : GameManager) (row col : Int) :
    ((row < 0 ∨ (gm.rows : Int) ≤ row ∨ col < 0 ∨ (gm.cols : Int) ≤ col) →
      GM1.revealCell gm row col = (gm, false)) ∧
    (Wf gm → (row < 0 ∨ (gm.rows : Int) ≤ row ∨ col < 0 ∨ (gm.cols : Int) ≤ col) →
      GM1.toggleFlag gm row col = none) ∧
    (∀ cell : CellState, cellAt? gm.board row col = some cell →
      cell.isRevealed = true → GM1.revealCell gm row col = (gm, false)) := by
  refine ⟨?_, ?_, ?_⟩
  · intro h
    have hg : row < 0 ∨ (gm.rows : Int) ≤ row ∨ col < 0 ∨ (gm.cols : Int) ≤ col ∨
        (cellAtD gm.board row col).isRevealed = true := by tauto
    unfold GM1.revealCell
    rw [GM1.revealFuelB_succ, if_pos hg]
  · intro hwf h
    unfold GM1.toggleFlag
    rw [cellAt?_none_oob hwf h]
  · intro cell hcell hrev
    have hg : row < 0 ∨ (gm.rows : Int) ≤ row ∨ col < 0 ∨ (gm.cols : Int) ≤ col ∨
        (cellAtD gm.board row col).isRevealed = true := by
      rw [cellAtD_eq hcell]
      tauto
    unfold GM1.revealCell
    rw [GM1.revealFuelB_succ, if_pos hg]

/-- C6 counterexample: the claim as stated says an out-of-range `toggleFlag`
leaves the board unchanged and propagates no error; on the source, row −1
and column 4 of the 1×4 board `sampleGm` both throw (modelled `none`). -/
theorem claim6_counterexample :
    GM1.toggleFlag sampleGm (-1) 0 = none ∧ GM1.toggleFlag sampleGm 0 4 = none := by
  decide

/-- C9: `toggleFlag` on an in-bounds revealed cell changes nothing; on an
in-bounds unrevealed cell it negates exactly that cell's `isFlagged` and
changes nothing else. -/
theorem claim9_toggle_flag (gm : GameManager) (row col : Int) (cell : CellState)
    (hcell : cellAt? gm.board row col = some cell) :
    (cell.isRevealed = true → GM1.toggleFlag gm row col = some gm) ∧
    (cell.isRevealed = false →
      GM1.toggleFlag gm row col = some { gm with board := (setAt gm.board row col
        (fun c => { c with isFlagged := !c.isFlagged })) } ∧
      cellAt? (setAt gm.board row col
          (fun c => { c with isFlagged := !c.isFlagged })) row col =
        some { cell with isFlagged := !cell.isFlagged } ∧
      ∀ r c : Int, ¬(r = row ∧ c = col) →
        cellAt? (setAt gm.board row col
          (fun c => { c with isFlagged := !c.isFlagged })) r c = cellAt? gm.board r c) := by
  constructor
  · intro hrev
    unfold GM1.toggleFlag
    rw [hcell]
    dsimp only
    rw [if_pos hrev]
  · intro hrev
    refine ⟨?_, cellAt?_setAt_self hcell _, ?_⟩
    · unfold GM1.toggleFlag
      rw [hcell]
      dsimp only
      rw [if_neg (by rw [hrev]; exact Bool.false_ne_true)]
    · intro r c hrc
      exact cellAt?_setAt_ne _ (fun hx => hrc ⟨hx.1.symm, hx.2.symm⟩)

/-- C9 witness: the revealed cell (0,1) and the unrevealed cell (0,0) of the
concrete board `blockGm`. -/
theorem claim9_witness :
    GM1.toggleFlag blockGm 0 1 = some blockGm ∧
    GM1.toggleFlag blockGm 0 0 = some { blockGm with board := (setAt blockGm.board 0 0
      (fun c => { c with isFlagged := !c.isFlagged })) } :=
  ⟨(claim9_toggle_flag blockGm 0 1 cellZR (by decide)).1 (by decide),
    ((claim9_toggle_flag blockGm 0 0 cellZ (by decide)).2 (by decide)).1⟩

/-- C1 (amended): on a well-formed board, revealing an in-bounds,
unrevealed, non-mine, zero-count cell returns `false`, and the cells
revealed afterwards are exactly the previously revealed ones plus the
in-bounds positions reachable from the origin through `expandable`
(in-bounds, unrevealed, non-mine, zero-count) cells — the connected region
of unrevealed zero-count cells containing the origin together with its
immediate fringe.  Already-revealed cells block expansion, which is the one
correction to the claim as stated. -/
theorem claim1_zero_reveal_region (gm : GameManager) (row col : Int)
    (hwf : Wf gm)
    (hexp : expandable gm.rows gm.cols gm.board (row, col) = true) :
    (GM1.revealCell gm row col).2 = false ∧
    ∀ q : Int × Int,
      revealedAt (GM1.revealCell gm row col).1.board q.1 q.2 = true ↔
        (revealedAt gm.board q.1 q.2 = true ∨
          (inB gm.rows gm.cols q = true ∧
            Reach gm.rows gm.cols gm.board (row, col) q)) := by
  constructor
  · exact GM1.revealFuelB_snd_false gm.rows gm.cols (unrevealedCount gm.board + 1)
      gm.board row col (expandable_eq_true.mp hexp).2.2.1
  · intro q
    constructor
    · intro h
      exact GM1.revealFuelB_sound gm.rows gm.cols (unrevealedCount gm.board + 1)
        gm.board row col q h
    · rintro (h | ⟨hin, hr⟩)
      · exact (GM1.evolves_revealFuelB gm.rows gm.cols (unrevealedCount gm.board + 1)
          gm.board row col).2.2.2.1 q.1 q.2 h
      · exact GM1.revealFuelB_complete gm.rows gm.cols gm.board row col hwf q hr hin

/-- C1 witness: revealing (0,0) of the concrete consistent board
`sampleGm = [0, 0, 1, mine]`. -/
theorem claim1_witness :
    Wf sampleGm ∧
    expandable sampleGm.rows sampleGm.cols sampleGm.board (0, 0) = true ∧
    ((GM1.revealCell sampleGm 0 0).2 = false ∧
      ∀ q : Int × Int,
        revealedAt (GM1.revealCell sampleGm 0 0).1.board q.1 q.2 = true ↔
          (revealedAt sampleGm.board q.1 q.2 = true ∨
            (inB sampleGm.rows sampleGm.cols q = true ∧
              Reach sampleGm.rows sampleGm.cols sampleGm.board (0, 0) q))) :=
  ⟨by decide, by decide,
    claim1_zero_reveal_region sampleGm 0 0 (by decide) (by decide)⟩

/-- C1 counterexample: on `blockGm` (a 1×3 mine-free, all-zero-count board
whose middle cell is already revealed) the cells (0,0), (0,1) and (0,2) form
one connected region of zero-count cells, so the claim as stated demands
that revealing (0,0) reveal (0,2); the code leaves (0,2) unrevealed because
the already-revealed (0,1) stops the recursion. -/
theorem claim1_counterexample :
    (cellAtD blockGm.board 0 0).neighborMines = 0 ∧
    (cellAtD blockGm.board 0 1).neighborMines = 0 ∧
    (cellAtD blockGm.board 0 2).neighborMines = 0 ∧
    (cellAtD blockGm.board 0 2).isMine = false ∧
    revealedAt blockGm.board 0 2 = false ∧
    revealedAt (GM1.revealCell blockGm 0 0).1.board 0 2 = false ∧
    (GM1.revealCell blockGm 0 0).2 = false := by
  decide

/-- C3: for every difficulty label (easy 9×9 with 10 mines, medium 16×16
with 40, hard 16×30 with 99) and every terminating outcome of the random
draws, the constructed engine has exactly `rows` rows of `cols` cells,
exactly `mineCount` mined cells, and every cell starts unrevealed and
unflagged. -/
theorem claim3_construct (d : Difficulty) (draws : List (Nat × Nat))
    (gm : GameManager)
    (hvalid : ∀ dr ∈ draws, dr.1 < (GM1.DIFFICULTY_SETTINGS d).rows ∧
      dr.2 < (GM1.DIFFICULTY_SETTINGS d).cols)
    (h : GM1.mkGameManager d draws = some gm) :
    GM1.DIFFICULTY_SETTINGS Difficulty.easy = ⟨9, 9, 10⟩ ∧
    GM1.DIFFICULTY_SETTINGS Difficulty.medium = ⟨16, 16, 40⟩ ∧
    GM1.DIFFICULTY_SETTINGS Difficulty.hard = ⟨16, 30, 99⟩ ∧
    gm.rows = (GM1.DIFFICULTY_SETTINGS d).rows ∧
    gm.cols = (GM1.DIFFICULTY_SETTINGS d).cols ∧
    gm.mines = (GM1.DIFFICULTY_SETTINGS d).mines ∧
    gm.board.length = gm.rows ∧
    (∀ row ∈ gm.board, row.length = gm.cols) ∧
    mineCount gm.board = gm.mines ∧
    (∀ r c : Int, (cellAtD gm.board r c).isRevealed = false ∧
      (cellAtD gm.board r c).isFlagged = false) := by
  unfold GM1.mkGameManager at h
  dsimp only at h
  rw [Option.map_eq_some'] at h
  obtain ⟨b', hb', rfl⟩ := h
  obtain ⟨hs, hmc, hfields⟩ := GM1.initBoard_spec (GM1.DIFFICULTY_SETTINGS d).rows
    (GM1.DIFFICULTY_SETTINGS d).cols (GM1.DIFFICULTY_SETTINGS d).mines draws b'
    hvalid hb'
  exact ⟨rfl, rfl, rfl, rfl, rfl, rfl, hs.1, hs.2, hmc, hfields⟩

set_option maxRecDepth 100000 in
/-- C3 witness: the easy construction from the concrete draws `drawsEasy`. -/
theorem claim3_witness :
    (∀ dr ∈ drawsEasy, dr.1 < (GM1.DIFFICULTY_SETTINGS Difficulty.easy).rows ∧
      dr.2 < (GM1.DIFFICULTY_SETTINGS Difficulty.easy).cols) ∧
    GM1.mkGameManager Difficulty.easy drawsEasy = some easyGm ∧
    (GM1.DIFFICULTY_SETTINGS Difficulty.easy = ⟨9, 9, 10⟩ ∧
      GM1.DIFFICULTY_SETTINGS Difficulty.medium = ⟨16, 16, 40⟩ ∧
      GM1.DIFFICULTY_SETTINGS Difficulty.hard = ⟨16, 30, 99⟩ ∧
      easyGm.rows = (GM1.DIFFICULTY_SETTINGS Difficulty.easy).rows ∧
      easyGm.cols = (GM1.DIFFICULTY_SETTINGS Difficulty.easy).cols ∧
      easyGm.mines = (GM1.DIFFICULTY_SETTINGS Difficulty.easy).mines ∧
      easyGm.board.length = easyGm.rows ∧
      (∀ row ∈ easyGm.board, row.length = easyGm.cols) ∧
      mineCount easyGm.board = easyGm.mines ∧
      (∀ r c : Int, (cellAtD easyGm.board r c).isRevealed = false ∧
        (cellAtD easyGm.board r c).isFlagged = false)) :=
  ⟨by decide, rfl,
    claim3_construct Difficulty.easy drawsEasy easyGm (by decide) rfl⟩

/-- C2: after a terminating construction, every non-mine cell's stored
`neighborMines` equals the exact number of mined cells among its up-to-8
grid-adjacent positions, clipped to the grid bounds. -/
theorem claim2_neighbor_counts (d : Difficulty) (draws : List (Nat × Nat))
    (gm : GameManager)
    (hvalid : ∀ dr ∈ draws, dr.1 < (GM1.DIFFICULTY_SETTINGS d).rows ∧
      dr.2 < (GM1.DIFFICULTY_SETTINGS d).cols)
    (h : GM1.mkGameManager d draws = some gm)
    (row col : Int) (cell : CellState)
    (hcell : cellAt? gm.board row col = some cell)
    (hm : cell.isMine = false) :
    cell.neighborMines = neighborMineCount8 gm.rows gm.cols gm.board row col := by
  unfold GM1.mkGameManager at h
  dsimp only at h
  rw [Option.map_eq_some'] at h
  obtain ⟨b', hb', rfl⟩ := h
  exact GM1.initBoard_neighbor (GM1.DIFFICULTY_SETTINGS d).rows
    (GM1.DIFFICULTY_SETTINGS d).cols (GM1.DIFFICULTY_SETTINGS d).mines draws b'
    hvalid hb' row col cell hcell hm

set_option maxRecDepth 100000 in
/-- C2 witness: the non-mine cell (2,0) of the concrete easy construction,
whose stored count is checked against the eight-neighbour count. -/
theorem claim2_witness :
    (∀ dr ∈ drawsEasy, dr.1 < (GM1.DIFFICULTY_SETTINGS Difficulty.easy).rows ∧
      dr.2 < (GM1.DIFFICULTY_SETTINGS Difficulty.easy).cols) ∧
    GM1.mkGameManager Difficulty.easy drawsEasy = some easyGm ∧
    cellAt? easyGm.board 2 0 = some (cellAtD easyGm.board 2 0) ∧
    (cellAtD easyGm.board 2 0).isMine = false ∧
    (cellAtD easyGm.board 2 0).neighborMines =
      neighborMineCount8 easyGm.rows easyGm.cols easyGm.board 2 0 :=
  ⟨by decide, rfl, by decide, by decide,
    claim2_neighbor_counts Difficulty.easy drawsEasy easyGm (by decide) rfl
      2 0 (cellAtD easyGm.board 2 0) (by decide) (by decide)⟩
